import Mathlib

/-!
Verification of the Statera L7 load balancer (github.com/mhef/statera).

This file shallowly embeds the parts of the Go source needed to settle the
frozen claims: the three balancers (`lb/router/algo/rr.go`, `lb/router/algo/lc.go`),
the rule evaluator (`lb/evaluator`), and the node-group / health-check logic
(`lb/router/router.go`, `lb/lb.go`).  Pure Go functions become Lean functions;
stateful methods become explicit state-passing functions; Go panics and
returned errors become `Except String`; Go `int` becomes `Int`.
-/

deriving instance DecidableEq for Except

namespace Statera

/-- `NodeKey` from `lb/router/router.go`: the (host, port) pair identifying a node.
The Go `uint16` port is modelled as `Nat` (no arithmetic is performed on it
beyond decimal formatting, so no wrap-around can occur). -/
structure NodeKey where
  host : String
  port : Nat
deriving DecidableEq, Repr

/-- `Node` from `lb/router/router.go`.  The two mutable health fields
(`healthy : bool`, `healthCheckerCancel context.CancelFunc`) are modelled as
Booleans (`healthCheckerCancel` as "a cancel handle is set"). -/
structure Node where
  nodeKey : NodeKey
  weight : Int
  healthy : Bool
  healthCheckerCancel : Bool
deriving DecidableEq, Repr

/-- Pin the `BEq (Option Node)` used by list counting to the decidable-equality
one, so the generic counting lemmas apply without instance mismatch. -/
instance (priority := 1001) : BEq (Option Node) := instBEqOfDecidableEq

/-! ## Round-robin balancer (`lb/router/algo/rr.go`)

The Go `RR` holds a `container/list` of nodes and a cursor pointing at a list
element.  With a stable pool the cursor is modelled as an index into the node
list (`none` models the `nil` cursor). -/

structure RRState where
  nodes : List Node
  cur : Option Nat
deriving DecidableEq, Repr

/-- `NewRR` from `rr.go`: empty list, nil cursor. -/
def RR.new : RRState := { nodes := [], cur := none }

/-- `RR.AddNode`: `r.nodes.PushBack(n)`. -/
def RR.AddNode (s : RRState) (n : Node) : RRState :=
  { s with nodes := s.nodes ++ [n] }

/-- Weight of the node at a position, with an unreachable default (used only
for the cursor translation in `DeleteNode`, where the Go cursor is known to
point at a live element). -/
def weightAt (l : List Node) (j : Nat) : Int :=
  match l[j]? with
  | some n => n.weight
  | none => 0

/-- `RR.DeleteNode` from `rr.go`: scan for the first node with the given key
and unlink it; when the deleted element carries the cursor, the cursor moves
to its successor (front on wrap-around, nil when the pool empties).  Element
pointers are translated to indices: an element at position `j` sits at `j - 1`
after a removal at `i < j`. -/
def RR.DeleteNode (s : RRState) (k : NodeKey) : RRState :=
  match s.nodes.findIdx? (fun n => n.nodeKey == k) with
  | none => s
  | some i =>
    let cur' :=
      match s.cur with
      | none => none
      | some j =>
        if j = i then
          if s.nodes.length = 1 then none
          else if i + 1 = s.nodes.length then some 0
          else some i
        else if i < j then some (j - 1) else some j
    { nodes := s.nodes.eraseIdx i, cur := cur' }

/-- `RR.Balance` from `rr.go`.  If the list is empty return nil; if the cursor
is nil reset it to the front; return the cursor's node and advance the cursor
(`nil` when it runs off the back).  The inner `none` branch of the list lookup
is unreachable: the Go cursor always points at a live element of the list. -/
def RR.Balance (s : RRState) : Option Node × RRState :=
  match s.nodes with
  | [] => (none, s)
  | front :: rest =>
    let i : Nat := match s.cur with | none => 0 | some i => i
    match (front :: rest)[i]? with
    | none => (none, s)
    | some v =>
      if i + 1 < (front :: rest).length then
        (some v, { s with cur := some (i + 1) })
      else
        (some v, { s with cur := none })

/-- Iterated `RR.Balance`: the list of the next `k` results and the final state. -/
def RR.balanceN (s : RRState) : Nat → List (Option Node) × RRState
  | 0 => ([], s)
  | k + 1 =>
    let (o, s') := RR.Balance s
    let (os, s'') := RR.balanceN s' k
    (o :: os, s'')

/-- State after `k` calls to `RR.Balance`. -/
def RR.stateAfter (s : RRState) (k : Nat) : RRState := (RR.balanceN s k).2

/-- Result of the `(k+1)`-th call to `RR.Balance` (0-indexed call counter). -/
def RR.out (s : RRState) (k : Nat) : Option Node := (RR.Balance (RR.stateAfter s k)).1

/-- A freshly built RR balancer over a given pool: `NewRR` followed by one
`AddNode` per node (cursor still nil). -/
def RR.fresh (nodes : List Node) : RRState := { nodes := nodes, cur := none }

/-! ## Weighted round-robin balancer (`lb/router/algo/rr.go`, second half)

`WRR` adds an integer request credit `reqCredit` for the node under the cursor. -/

structure WRRState where
  nodes : List Node
  cur : Option Nat
  reqCredit : Int
deriving DecidableEq, Repr

/-- `NewWRR`: empty list, nil cursor, zero credit. -/
def WRR.new : WRRState := { nodes := [], cur := none, reqCredit := 0 }

/-- `WRR.AddNode`: `r.nodes.PushBack(n)`. -/
def WRR.AddNode (s : WRRState) (n : Node) : WRRState :=
  { s with nodes := s.nodes ++ [n] }

/-- `WRR.DeleteNode` from `rr.go`: like `RR.DeleteNode`, but when the cursor
moves it also resets the request credit to the new cursor node's weight (front
node on wrap-around, successor otherwise; both read before the removal). -/
def WRR.DeleteNode (s : WRRState) (k : NodeKey) : WRRState :=
  match s.nodes.findIdx? (fun n => n.nodeKey == k) with
  | none => s
  | some i =>
    let curCredit : Option Nat × Int :=
      match s.cur with
      | none => (none, s.reqCredit)
      | some j =>
        if j = i then
          if s.nodes.length = 1 then (none, s.reqCredit)
          else if i + 1 = s.nodes.length then (some 0, weightAt s.nodes 0)
          else (some i, weightAt s.nodes (i + 1))
        else if i < j then (some (j - 1), s.reqCredit) else (some j, s.reqCredit)
    { nodes := s.nodes.eraseIdx i, cur := curCredit.1, reqCredit := curCredit.2 }

/-- `WRR.Balance` from `rr.go`.  Mirrors the source exactly: on a nil cursor the
front node is returned, and the cursor/credit are initialized depending on
whether the front node's weight is `<= 1`; otherwise the cursor's node is
returned, the credit decremented, and the cursor advanced (with credit reset to
the new node's weight) once the credit drops below 1.  The `none` branch of the
cursor lookup is unreachable: the Go cursor always points at a live element. -/
def WRR.Balance (s : WRRState) : Option Node × WRRState :=
  match s.nodes with
  | [] => (none, s)
  | front :: rest =>
    match s.cur with
    | none =>
      if front.weight ≤ 1 then
        match rest with
        | [] => (some front, { s with cur := none, reqCredit := 0 })
        | second :: _ => (some front, { s with cur := some 1, reqCredit := second.weight })
      else
        (some front, { s with cur := some 0, reqCredit := front.weight - 1 })
    | some i =>
      match (front :: rest)[i]? with
      | none => (none, s)
      | some v =>
        let credit := s.reqCredit - 1
        if credit < 1 then
          match (front :: rest)[i + 1]? with
          | some nxt => (some v, { s with cur := some (i + 1), reqCredit := nxt.weight })
          | none => (some v, { s with cur := none, reqCredit := 0 })
        else
          (some v, { s with cur := some i, reqCredit := credit })

/-- Iterated `WRR.Balance`. -/
def WRR.balanceN (s : WRRState) : Nat → List (Option Node) × WRRState
  | 0 => ([], s)
  | k + 1 =>
    let (o, s') := WRR.Balance s
    let (os, s'') := WRR.balanceN s' k
    (o :: os, s'')

/-- State after `k` calls to `WRR.Balance`. -/
def WRR.stateAfter (s : WRRState) (k : Nat) : WRRState := (WRR.balanceN s k).2

/-- Result of the `(k+1)`-th call to `WRR.Balance` (0-indexed call counter). -/
def WRR.out (s : WRRState) (k : Nat) : Option Node := (WRR.Balance (WRR.stateAfter s k)).1

/-- A freshly built WRR balancer over a given pool: `NewWRR` followed by one
`AddNode` per node. -/
def WRR.fresh (nodes : List Node) : WRRState := { nodes := nodes, cur := none, reqCredit := 0 }

/-- Sum of the node weights of a pool, as a `Nat` (the claims assume every
weight is at least 1). -/
def sumWeights (nodes : List Node) : Nat := (nodes.map (fun n => n.weight.toNat)).sum

/-- One full WRR pass over a pool: each node repeated its weight's worth of
times, in pool order.  `WRR.Balance` is proved to produce exactly this block
sequence over one pass. -/
def wrrPass (nodes : List Node) : List Node :=
  nodes.flatMap (fun n => List.replicate n.weight.toNat n)

/-! ## Least-connections balancer (`lb/router/algo/lc.go`)

`nodeWR` holds a node together with its in-flight request counter and its
current index in the heap array (`-1` once detached).  The Go heap stores
`*nodeWR` pointers; entries are modelled as values, which coincides with the
pointer semantics as long as the entry under discussion is not aliased by a
heap slot — exactly the detached-entry situation the claim is about.

Go panics (out-of-range slice indexing) are modelled as `Except.error`; all
loops of `container/heap` carry an explicit fuel argument, and every theorem
below supplies enough fuel for the loop to reach its `break` condition. -/

structure NodeWR where
  node : Node
  reqs : Int
  index : Int
deriving DecidableEq, Repr

/-- Read `nh[i]` on a Go slice: panics (errors) outside `[0, len)`. -/
def hGet (nh : List NodeWR) (i : Int) : Except String NodeWR :=
  if h : 0 ≤ i ∧ i.toNat < nh.length then .ok (nh.get ⟨i.toNat, h.2⟩)
  else .error "runtime error: index out of range"

/-- Write `nh[i] = x` on a Go slice: panics (errors) outside `[0, len)`. -/
def hSet (nh : List NodeWR) (i : Int) (x : NodeWR) : Except String (List NodeWR) :=
  if 0 ≤ i ∧ i.toNat < nh.length then .ok (nh.set i.toNat x)
  else .error "runtime error: index out of range"

/-- `nodeHeap.Less` from `lc.go`: compare in-flight request counters. -/
def nodeHeapLess (nh : List NodeWR) (i j : Int) : Except String Bool := do
  let a ← hGet nh i
  let b ← hGet nh j
  .ok (decide (a.reqs < b.reqs))

/-- `nodeHeap.Swap` from `lc.go`: swap the two slots, then set each slot's
`index` field to its new position. -/
def nodeHeapSwap (nh : List NodeWR) (i j : Int) : Except String (List NodeWR) := do
  let a ← hGet nh i
  let b ← hGet nh j
  let nh ← hSet nh i { b with index := i }
  let nh ← hSet nh j { a with index := j }
  .ok nh

/-- `nodeHeap.Push` from `lc.go`: set the item's index to the old length and
append it. -/
def nodeHeapPush (nh : List NodeWR) (x : NodeWR) : List NodeWR :=
  nh ++ [{ x with index := (nh.length : Int) }]

/-- `nodeHeap.Pop` from `lc.go`: remove the last element, mark its index `-1`
and return it.  Popping an empty heap indexes `old[-1]` and panics. -/
def nodeHeapPop (nh : List NodeWR) : Except String (List NodeWR × NodeWR) :=
  match nh.getLast? with
  | none => .error "runtime error: index out of range"
  | some item => .ok (nh.dropLast, { item with index := -1 })

/-- The `down` loop of Go `container/heap` (sift-down from index `i` with heap
size bound `n`), returning the new heap and the final loop index.  The fuel
argument bounds the number of iterations; `heapFuel` below always suffices. -/
def heapDownLoop : List NodeWR → Int → Int → Nat → Except String (List NodeWR × Int)
  | _, _, _, 0 => .error "fuel exhausted"
  | nh, i, n, fuel + 1 =>
    let j1 := 2 * i + 1
    if j1 ≥ n ∨ j1 < 0 then .ok (nh, i)
    else do
      let j := j1
      let j2 := j1 + 1
      let j ← if j2 < n then do
          let b ← nodeHeapLess nh j2 j1
          pure (if b then j2 else j)
        else pure j
      let b ← nodeHeapLess nh j i
      if ¬b then .ok (nh, i)
      else do
        let nh' ← nodeHeapSwap nh i j
        heapDownLoop nh' j n fuel

/-- Go `container/heap.down`: runs the loop and reports whether the index moved. -/
def heapDown (nh : List NodeWR) (i0 n : Int) (fuel : Nat) :
    Except String (List NodeWR × Bool) := do
  let (nh', i) ← heapDownLoop nh i0 n fuel
  .ok (nh', decide (i0 < i))

/-- The `up` loop of Go `container/heap` (sift-up from index `j`).  The parent
index is Go truncated integer division, written `Int.tdiv` here. -/
def heapUpLoop : List NodeWR → Int → Nat → Except String (List NodeWR × Int)
  | _, _, 0 => .error "fuel exhausted"
  | nh, j, fuel + 1 =>
    let i := Int.tdiv (j - 1) 2
    if i = j then .ok (nh, j)
    else do
      let b ← nodeHeapLess nh j i
      if ¬b then .ok (nh, j)
      else do
        let nh' ← nodeHeapSwap nh i j
        heapUpLoop nh' i fuel

/-- Fuel that lets both heap loops reach their exit condition: `down` strictly
increases its index below `length` and `up` strictly decreases it. -/
def heapFuel (nh : List NodeWR) : Nat := nh.length + 2

/-- Go `container/heap.Fix`: sift down from `i`; if nothing moved, sift up. -/
def heapFix (nh : List NodeWR) (i : Int) : Except String (List NodeWR) := do
  let (nh', moved) ← heapDown nh i (nh.length : Int) (heapFuel nh)
  if moved then .ok nh'
  else do
    let (nh'', _) ← heapUpLoop nh' i (heapFuel nh)
    .ok nh''

/-- Go `container/heap.Remove`: swap slot `i` with the last slot, re-establish
heap order among the first `n-1` slots, then pop the last slot. -/
def heapRemove (nh : List NodeWR) (i : Int) : Except String (List NodeWR × NodeWR) := do
  let n : Int := (nh.length : Int) - 1
  if n ≠ i then do
    let nh ← nodeHeapSwap nh i n
    let (nh, moved) ← heapDown nh i n (heapFuel nh)
    let nh ← if moved then pure nh
      else do
        let (nh', _) ← heapUpLoop nh i (heapFuel nh)
        pure nh'
    nodeHeapPop nh
  else nodeHeapPop nh

/-- Go `container/heap.Push`: append then sift up from the last slot. -/
def heapPush (nh : List NodeWR) (x : NodeWR) : Except String (List NodeWR) := do
  let nh' := nodeHeapPush nh x
  let (nh'', _) ← heapUpLoop nh' ((nh'.length : Int) - 1) (heapFuel nh')
  .ok nh''

/-- `LC.AddNode` from `lc.go`: wrap the node with zero in-flight requests and
index `-1`, then `heap.Push` it. -/
def LC.AddNode (nh : List NodeWR) (n : Node) : Except String (List NodeWR) :=
  heapPush nh { node := n, reqs := 0, index := -1 }

/-- `LC.DeleteNode` from `lc.go`: scan the heap array for the first entry with
the given key and `heap.Remove` it at its recorded index; a missing key leaves
the heap untouched.  The detached entry (Go keeps it alive through the
in-flight observer's pointer) is returned alongside the new heap. -/
def LC.DeleteNode (nh : List NodeWR) (k : NodeKey) :
    Except String (List NodeWR × Option NodeWR) :=
  match nh.find? (fun v => v.node.nodeKey == k) with
  | none => .ok (nh, none)
  | some v => do
    let (nh', item) ← heapRemove nh v.index
    .ok (nh', some item)

/-- `LC.Balance` from `lc.go`: take the root, bump its counter, `heap.Fix` at
index 0, and return it (the completion observer is spawned with the entry). -/
def LC.Balance (nh : List NodeWR) : Except String (List NodeWR × Option NodeWR) :=
  match nh with
  | [] => .ok (nh, none)
  | selected :: _ => do
    let selected' := { selected with reqs := selected.reqs + 1 }
    let nh ← hSet nh 0 selected'
    let nh ← heapFix nh 0
    .ok (nh, some selected')

/-- `LC.monitorRequestFinish` from `lc.go`, at the point the request context is
done: decrement the entry's counter and `heap.Fix` at its recorded index.  The
entry is passed as a value because the claim under verification concerns an
entry already detached from the heap (no heap slot aliases it). -/
def LC.monitorRequestFinish (nh : List NodeWR) (n : NodeWR) :
    Except String (List NodeWR × NodeWR) := do
  let n' := { n with reqs := n.reqs - 1 }
  let nh' ← heapFix nh n'.index
  .ok (nh', n')

/-! ## Condition evaluator (`lb/evaluator/condition.go`)

Requests are modelled by the data the evaluator consults: escaped URL path,
query/header/form multimaps, the body-read outcome, the remote address and the
arrival-listener tag injected by `lb/server` (`none` when the context carries
no tag).  The two external library calls — `regexp.MatchString` and the
composition of `net.ParseCIDR` with `IPNet.Contains` on a parsed address — are
parameters of the embedding (`ExtEnv`), since their internals are outside this
repository. -/

inductive CondType where
  | Path | Query | BodyString | BodyForm | Header | IP
deriving DecidableEq, Repr

inductive CondOp where
  | Equal | BeginWith | Regex | Range
deriving DecidableEq, Repr

structure Condition where
  not : Bool
  type : CondType
  key : String
  operation : CondOp
  value : String
deriving DecidableEq, Repr

structure Request where
  urlPath : String
  query : List (String × List String)
  headers : List (String × List String)
  body : Except String String
  postForm : Except String (List (String × List String))
  remoteAddr : String
  listenerTag : Option String

/-- The external library functions used by `condition.go`:
`regexMatch pat s` models `regexp.MatchString(pat, s)`, and `cidrContains v`
models `net.ParseCIDR(v)` returning (on success) the predicate
`ipNet.Contains(net.ParseIP(·))`. -/
structure ExtEnv where
  regexMatch : String → String → Except String Bool
  cidrContains : String → Except String (String → Bool)

/-- `strings.ToLower`, implemented on the character list (all case mapping the
evaluator performs is per-character). -/
def strToLower (s : String) : String := String.mk (s.data.map Char.toLower)

/-- `doStrCondOp` from `condition.go`: lower-case both operands, then compare
per the operation; `Range` falls through to the trailing error return. -/
def doStrCondOp (env : ExtEnv) (op : CondOp) (a b : String) : Except String Bool :=
  let a := strToLower a
  let b := strToLower b
  match op with
  | .Equal => .ok (a == b)
  | .BeginWith => .ok (a.startsWith b)
  | .Regex => env.regexMatch b a
  | .Range => .error "evaluator/condition: invalid operation for string type"

/-- First element of a Go string slice: `vs[0]` panics when the slice is empty. -/
def sliceHead (vs : List String) : Except String String :=
  match vs with
  | [] => .error "runtime error: index out of range"
  | v :: _ => .ok v

/-- `evaluateCondPath`: compare the escaped URL path. -/
def evaluateCondPath (env : ExtEnv) (r : Request) (c : Condition) : Except String Bool :=
  doStrCondOp env c.operation r.urlPath c.value

/-- `evaluateCondQuery`: absent key yields false, else compare the first value. -/
def evaluateCondQuery (env : ExtEnv) (r : Request) (c : Condition) : Except String Bool :=
  match r.query.lookup c.key with
  | none => .ok false
  | some vs => do
    let v ← sliceHead vs
    doStrCondOp env c.operation v c.value

/-- `evaluateCondBodyString`: read the whole body (resetting the buffer is an
effect invisible to the result), then compare as a string. -/
def evaluateCondBodyString (env : ExtEnv) (r : Request) (c : Condition) : Except String Bool := do
  let body ← r.body
  doStrCondOp env c.operation body c.value

/-- `evaluateCondBodyForm`: parse the form (errors propagate), absent key yields
false, else compare the first value. -/
def evaluateCondBodyForm (env : ExtEnv) (r : Request) (c : Condition) : Except String Bool := do
  let form ← r.postForm
  match form.lookup c.key with
  | none => .ok false
  | some vs => do
    let v ← sliceHead vs
    doStrCondOp env c.operation v c.value

/-- `evaluateCondHeader`: absent key yields false, else compare the first value. -/
def evaluateCondHeader (env : ExtEnv) (r : Request) (c : Condition) : Except String Bool :=
  match r.headers.lookup c.key with
  | none => .ok false
  | some vs => do
    let v ← sliceHead vs
    doStrCondOp env c.operation v c.value

/-- `evaluateCondIP`: only `Range` is valid; parse the CIDR, strip the port
from the remote address by splitting on `:` and test membership. -/
def evaluateCondIP (env : ExtEnv) (r : Request) (c : Condition) : Except String Bool :=
  if c.operation ≠ .Range then
    .error "evaluator/condition: invalid operation for IP type"
  else do
    let contains ← env.cidrContains c.value
    let rIP := (r.remoteAddr.splitOn ":").headD ""
    .ok (contains rIP)

/-- The `switch c.Type` block of `evaluateCondition`, before the final XOR. -/
def evaluateConditionBase (env : ExtEnv) (r : Request) (c : Condition) : Except String Bool :=
  match c.type with
  | .Path => evaluateCondPath env r c
  | .Query => evaluateCondQuery env r c
  | .BodyString => evaluateCondBodyString env r c
  | .BodyForm => evaluateCondBodyForm env r c
  | .Header => evaluateCondHeader env r c
  | .IP => evaluateCondIP env r c

/-- `evaluateCondition` from `condition.go`: dispatch on the condition type,
then XOR the boolean result with `c.Not` (`ret = ret != c.Not`). -/
def evaluateCondition (env : ExtEnv) (r : Request) (c : Condition) : Except String Bool :=
  match evaluateConditionBase env r c with
  | .ok ret => .ok (ret != c.not)
  | .error e => .error e

/-! ## Rule engine (`lb/evaluator/evaluator.go`) -/

structure Reject where
  statusCode : Int
  message : String
deriving DecidableEq, Repr

structure Action where
  nodeGroup : String
  reject : Reject
  redirect : String
deriving DecidableEq, Repr

/-- `Rule` from `evaluator.go`.  The evaluator stores `*Rule` pointers and
`DeleteRule` compares pointers; `rid` models that pointer identity. -/
structure Rule where
  priority : Int
  listener : String
  conditions : List Condition
  action : Action
  dynamic : String
  rid : Nat
deriving DecidableEq, Repr

/-- The comparison `sort.SliceStable` is given in `AddRule`:
ascending priority. -/
def ruleLE (a b : Rule) : Prop := a.priority ≤ b.priority

instance : DecidableRel ruleLE := fun a b => inferInstanceAs (Decidable (a.priority ≤ b.priority))

instance : IsTotal Rule ruleLE := ⟨fun a b => Int.le_total a.priority b.priority⟩

instance : IsTrans Rule ruleLE := ⟨fun _ _ _ hab hbc => le_trans hab hbc⟩

/-- `Evaluator.AddRule`: append the rule, then stably sort by ascending
priority.  `sort.SliceStable` is modelled by Mathlib's stable
`List.insertionSort` (both produce the unique sorted permutation in which
elements of equal priority keep their pre-sort relative order). -/
def Evaluator.AddRule (rs : List Rule) (r : Rule) : List Rule :=
  List.insertionSort ruleLE (rs ++ [r])

/-- `Evaluator.DeleteRule`: remove the first list entry that is the given rule
(Go compares the `*Rule` pointers, modelled by `rid`). -/
def Evaluator.DeleteRule (rs : List Rule) (r : Rule) : List Rule :=
  match rs with
  | [] => []
  | v :: rest => if v.rid == r.rid then rest else v :: Evaluator.DeleteRule rest r

/-- An admin operation on the evaluator's rule list. -/
inductive EvOp where
  | add (r : Rule)
  | del (r : Rule)

/-- Run a sequence of `AddRule` / `DeleteRule` calls against an evaluator. -/
def Evaluator.run (ops : List EvOp) : List Rule :=
  ops.foldl (fun rs op => match op with
    | .add r => Evaluator.AddRule rs r
    | .del r => Evaluator.DeleteRule rs r) []

/-- The rules passed to `AddRule` over a sequence of operations, in call order. -/
def EvOp.adds (ops : List EvOp) : List Rule :=
  ops.filterMap (fun op => match op with
    | .add r => some r
    | .del _ => none)

/-- The inner condition loop of `evaluateRequest`: evaluate conditions
left-to-right, propagating errors and short-circuiting on the first false. -/
def evalConds (env : ExtEnv) (r : Request) : List Condition → Except String Bool
  | [] => .ok true
  | c :: cs => do
    let ret ← evaluateCondition env r c
    if ret then evalConds env r cs else .ok false

/-- The synthetic action returned when no rule is satisfied
(`Action{Reject: {500, "no rule was satisfied"}}`). -/
def noRuleAction : Action :=
  { nodeGroup := "", reject := { statusCode := 500, message := "no rule was satisfied" }, redirect := "" }

/-- `Evaluator.evaluateRequest` from `evaluator.go`: walk the rule list in
order; skip a rule when the request context carries no listener tag or the tag
differs from the rule's listener; return the first rule whose conditions all
evaluate true; fall through to the synthetic 500 reject action. -/
def Evaluator.evaluateRequest (env : ExtEnv) (rules : List Rule) (r : Request) :
    Except String Action :=
  match rules with
  | [] => .ok noRuleAction
  | rule :: rest =>
    match r.listenerTag with
    | none => Evaluator.evaluateRequest env rest r
    | some lnr =>
      if lnr ≠ rule.listener then Evaluator.evaluateRequest env rest r
      else do
        let allCondsTrue ← evalConds env r rule.conditions
        if allCondsTrue then .ok rule.action
        else Evaluator.evaluateRequest env rest r

/-- Decidable form of "this rule is reached and satisfied for request `r`":
the arrival-listener tag is present and equal to the rule's listener, and the
condition loop returns true. -/
def ruleSatisfied (env : ExtEnv) (r : Request) (rule : Rule) : Bool :=
  (r.listenerTag == some rule.listener) &&
    (match evalConds env r rule.conditions with
     | .ok ret => ret
     | .error _ => false)

/-! ## Node groups and health checking (`lb/router/router.go`, `lb/lb.go`)

A `NodeGroup` owns a `map[NodeKey]*Node` (modelled as an association list with
Go map insert/replace and delete), plus a `Balancer`.  For the group-level
claims only balancer *membership* matters, and all three balancer
implementations treat their pool the same way at the interface level —
`AddNode` appends the node, `DeleteNode` removes the first entry with the
given key — so the group model carries the pool as a `List Node`. -/

structure HealthCheckConfig where
  path : String
  interval : Int
  timeout : Int
deriving DecidableEq, Repr

/-- The `health_check` block of `cfg.NodeGroup` (`cfg/cfg.go`): identical shape
to `router.HealthCheckConfig`; JSON-absent fields unmarshal to the zero values
`""` / `0` / `0`. -/
structure CfgHealthCheck where
  path : String
  interval : Int
  timeout : Int
deriving DecidableEq, Repr

/-- The conversion `router.HealthCheckConfig(cfgNg.HealthCheck)` performed by
`routerControl` in `lb/lb.go`: a plain Go struct conversion, field for field.
No code in the repository substitutes the documented defaults. -/
def routerHealthCheckConfig (c : CfgHealthCheck) : HealthCheckConfig :=
  { path := c.path, interval := c.interval, timeout := c.timeout }

/-- Go map insert/replace `m[k] = v`. -/
def assocUpdate : List (NodeKey × Node) → NodeKey → Node → List (NodeKey × Node)
  | [], k, v => [(k, v)]
  | (k', v') :: rest, k, v =>
    if k' = k then (k, v) :: rest else (k', v') :: assocUpdate rest k v

/-- Go map delete `delete(m, k)`. -/
def assocErase : List (NodeKey × Node) → NodeKey → List (NodeKey × Node)
  | [], _ => []
  | (k', v') :: rest, k =>
    if k' = k then rest else (k', v') :: assocErase rest k

structure NodeGroupState where
  name : String
  https : Bool
  healthCheck : HealthCheckConfig
  nodes : List (NodeKey × Node)
  pool : List Node
deriving Repr

/-- The `&router.Node{...}` literal built by `routerControl` in `lb/lb.go`:
only key and weight are set, so `healthy` and the cancel handle take their Go
zero values. -/
def newNode (host : String) (port : Nat) (weight : Int) : Node :=
  { nodeKey := { host := host, port := port }, weight := weight,
    healthy := false, healthCheckerCancel := false }

/-- The group built by `routerControl` from one config entry, before its nodes
are added: fresh balancer (empty pool), empty node map, health-check config
converted verbatim. -/
def routerControlGroup (name : String) (https : Bool) (hc : CfgHealthCheck) : NodeGroupState :=
  { name := name, https := https, healthCheck := routerHealthCheckConfig hc,
    nodes := [], pool := [] }

/-- The state effect of `startNodeHealthChecker` on the node: if a cancel
handle is already present, return; otherwise install one (and spawn the probe
loop).  It touches neither `healthy` nor the balancer. -/
def NodeGroup.startNodeHealthChecker (n : Node) : Node :=
  if n.healthCheckerCancel then n else { n with healthCheckerCancel := true }

/-- `NodeGroup.AddNode` from `router.go`: store the node in the group map under
its (host, port) key and start its health checker.  The balancer is not
touched — the health checker alone adds nodes to it. -/
def NodeGroup.AddNode (g : NodeGroupState) (n : Node) : NodeGroupState :=
  { g with nodes := assocUpdate g.nodes n.nodeKey (NodeGroup.startNodeHealthChecker n) }

/-- `stopNodeHealthChecker` dereferences its argument to lock `n.healthMu`: a
nil node (the zero value a Go map read yields on a missing key) panics. -/
def NodeGroup.stopNodeHealthChecker (n : Option Node) : Except String Unit :=
  match n with
  | none => .error "runtime error: invalid memory address or nil pointer dereference"
  | some _ => .ok ()

/-- `NodeGroup.DeleteNode` from `router.go`: stop the health checker of
`ng.nodes[nk]` (panicking if the key is absent), remove the node from the
balancer, and delete it from the map. -/
def NodeGroup.DeleteNode (g : NodeGroupState) (nk : NodeKey) : Except String NodeGroupState := do
  let _ ← NodeGroup.stopNodeHealthChecker (g.nodes.lookup nk)
  let pool' := g.pool.eraseP (fun v => v.nodeKey == nk)
  .ok { g with pool := pool', nodes := assocErase g.nodes nk }

/-- Outcome of one health probe round trip: whether `transport.RoundTrip`
returned an error, and the response status code (only consulted when there is
no error, matching the short-circuit evaluation in the source). -/
structure ProbeResult where
  err : Bool
  statusCode : Int
deriving DecidableEq, Repr

/-- `NodeGroup.checkNodeHealth` from `router.go`, after the round trip: if the
node has been removed from the group meanwhile, do nothing; a healthy node
whose probe failed (error or status other than 200) turns unhealthy and leaves
the balancer; an unhealthy node whose probe returned 200 without error turns
healthy and enters the balancer; otherwise nothing changes. -/
def NodeGroup.checkNodeHealth (g : NodeGroupState) (nk : NodeKey) (p : ProbeResult) :
    NodeGroupState :=
  match g.nodes.lookup nk with
  | none => g
  | some n =>
    if n.healthy ∧ (p.err ∨ p.statusCode ≠ 200) then
      { g with nodes := assocUpdate g.nodes nk { n with healthy := false },
               pool := g.pool.eraseP (fun v => v.nodeKey == nk) }
    else if ¬n.healthy ∧ ¬p.err ∧ p.statusCode = 200 then
      { g with nodes := assocUpdate g.nodes nk { n with healthy := true },
               pool := g.pool ++ [{ n with healthy := true }] }
    else g

/-- Run a node's health checker for a sequence of probe outcomes. -/
def NodeGroup.runProbes (g : NodeGroupState) (nk : NodeKey) (ps : List ProbeResult) :
    NodeGroupState :=
  ps.foldl (fun g p => NodeGroup.checkNodeHealth g nk p) g

/-- `time.Second` in nanoseconds (`time.Duration` is an int64 nanosecond count). -/
def timeSecond : Int := 1000000000

/-- `time.NewTicker(d)` panics when `d <= 0`; otherwise the ticker fires every
`d` nanoseconds. -/
def newTicker (d : Int) : Except String Int :=
  if d ≤ 0 then .error "non-positive interval for NewTicker" else .ok d

/-- The ticker the spawned health-check goroutine creates:
`time.NewTicker(time.Duration(ng.HealthCheck.Interval) * time.Second)`. -/
def healthCheckerTickerPeriod (g : NodeGroupState) : Except String Int :=
  newTicker (g.healthCheck.interval * timeSecond)

/-- The outgoing probe request built by `checkNodeHealth`: method, URL from
`fmt.Sprintf("%s://%s:%d/%s", scheme, n.Host, n.Port, ng.HealthCheck.Path)`,
and the `context.WithTimeout` bound in nanoseconds. -/
structure ProbeRequest where
  method : String
  url : String
  timeout : Int
deriving DecidableEq, Repr

/-- The probe request `checkNodeHealth` issues for a node of the group. -/
def NodeGroup.probeRequest (g : NodeGroupState) (n : Node) : ProbeRequest :=
  let scheme := if g.https then "https" else "http"
  { method := "GET"
    url := scheme ++ "://" ++ n.nodeKey.host ++ ":" ++ Nat.repr n.nodeKey.port
      ++ "/" ++ g.healthCheck.path
    timeout := g.healthCheck.timeout * timeSecond }

/-- Skip to just past the first `://` of a URL (the generic-URI parse step that
separates the scheme from the authority). -/
def dropSchemeSep : List Char → List Char
  | [] => []
  | c :: rest =>
    if c = ':' ∧ rest.take 2 = ['/', '/'] then rest.drop 2
    else dropSchemeSep rest

/-- Skip the authority part: the path component of a URL starts at the first
`/` after the `://`. -/
def dropUntilSlash : List Char → List Char
  | [] => []
  | c :: rest => if c = '/' then c :: rest else dropUntilSlash rest

/-- The path component of a URL string: everything from the first `/` after
the scheme separator. -/
def urlPathComponent (s : String) : String :=
  String.mk (dropUntilSlash (dropSchemeSep s.toList))

/-- The scheme of a URL string: everything before the first `:`. -/
def urlScheme (s : String) : String :=
  String.mk (s.toList.takeWhile (fun c => c != ':'))

/-! ## Concrete instances used by the witness theorems -/

/-- A trivial external environment for concrete evaluations. -/
def env0 : ExtEnv :=
  { regexMatch := fun _ _ => .ok false, cidrContains := fun _ => .error "invalid CIDR address" }

/-- A concrete request for witnesses. -/
def req0 : Request :=
  { urlPath := "/x", query := [], headers := [], body := .ok "", postForm := .ok [],
    remoteAddr := "127.0.0.1:5000", listenerTag := some ":80" }

/-- A concrete path-equality condition for witnesses. -/
def cond0 : Condition :=
  { not := false, type := .Path, key := "", operation := .Equal, value := "/x" }

/-- A rule bound to a listener other than `req0`'s (skipped during matching). -/
def rule1 : Rule :=
  { priority := 1, listener := ":81", conditions := [cond0],
    action := { nodeGroup := "grp1", reject := { statusCode := 0, message := "" }, redirect := "" },
    dynamic := "", rid := 1 }

/-- A rule on `req0`'s listener whose single condition `req0` satisfies. -/
def rule2 : Rule :=
  { priority := 2, listener := ":80", conditions := [cond0],
    action := { nodeGroup := "grp2", reject := { statusCode := 0, message := "" }, redirect := "" },
    dynamic := "", rid := 2 }

/-- A concrete empty node group for witnesses. -/
def g0 : NodeGroupState :=
  { name := "g", https := false, healthCheck := { path := "/", interval := 5, timeout := 3 },
    nodes := [], pool := [] }

/-- A concrete fresh node for witnesses. -/
def n0 : Node := newNode "h" 80 1

/-- Two failing probe outcomes (a transport error, then a 500). -/
def ps0 : List ProbeResult :=
  [{ err := true, statusCode := 0 }, { err := false, statusCode := 500 }]

/-- Three distinct concrete nodes (unit weights) for the RR witness. -/
def nodes0 : List Node := [newNode "A" 80 1, newNode "B" 80 1, newNode "C" 80 1]

/-- Three distinct concrete nodes with weights 3, 1, 2 for the WRR example. -/
def wnodes0 : List Node := [newNode "A" 80 3, newNode "B" 80 1, newNode "C" 80 2]

/-- A concrete three-entry LC heap (requests 0 ≤ 1 ≤ 2, indices recorded). -/
def lcWA : NodeWR := { node := newNode "A" 80 1, reqs := 0, index := 0 }

def lcWB : NodeWR := { node := newNode "B" 80 1, reqs := 1, index := 1 }

def lcWC : NodeWR := { node := newNode "C" 80 1, reqs := 2, index := 2 }

def lcW0 : List NodeWR := [lcWA, lcWB, lcWC]

/-- The key of the first entry of `lcW0`. -/
def lcKA : NodeKey := { host := "A", port := 80 }

end Statera

/-! # Theorems -/

namespace Statera

/-! ## C2: health-check defaults -/

/-- C2: REFUTED (code bug).  The claim — and the doc comments on
`HealthCheckConfig` itself — say that a zero-valued `health_check`
configuration falls back to the defaults path `"/"`, interval 5 s and timeout
3 s.  No code applies those defaults: `routerControl` converts the config
verbatim, the spawned checker builds its ticker directly from the configured
interval (so a zero interval panics in `time.NewTicker` instead of probing
every 5 s), and the probe context timeout is 0 instead of 3 s. -/
theorem health_check_zero_config_not_defaulted :
    (routerControlGroup "api" false { path := "", interval := 0, timeout := 0 }).healthCheck
        = { path := "", interval := 0, timeout := 0 } ∧
    healthCheckerTickerPeriod
        (routerControlGroup "api" false { path := "", interval := 0, timeout := 0 })
        = .error "non-positive interval for NewTicker" ∧
    healthCheckerTickerPeriod
        (routerControlGroup "api" false { path := "", interval := 0, timeout := 0 })
        ≠ .ok (5 * timeSecond) ∧
    (NodeGroup.probeRequest
        (routerControlGroup "api" false { path := "", interval := 0, timeout := 0 })
        (newNode "h" 80 1)).timeout = 0 ∧
    (NodeGroup.probeRequest
        (routerControlGroup "api" false { path := "", interval := 0, timeout := 0 })
        (newNode "h" 80 1)).timeout ≠ 3 * timeSecond := by
  refine ⟨rfl, by decide, by decide, rfl, by decide⟩

/-! ## C4: the health-probe request -/

theorem dropSchemeSep_append (pre rest : List Char) (h : (':' : Char) ∉ pre) :
    dropSchemeSep (pre ++ ':' :: '/' :: '/' :: rest) = rest := by
  induction pre with
  | nil => simp [dropSchemeSep]
  | cons c cs ih =>
    have hc : c ≠ ':' := fun hc => h (hc ▸ List.mem_cons_self c cs)
    have hcs : (':' : Char) ∉ cs := fun hm => h (List.mem_cons_of_mem c hm)
    simp only [List.cons_append, dropSchemeSep, hc, false_and, if_false]
    exact ih hcs

theorem dropUntilSlash_append (pre rest : List Char) (h : ('/' : Char) ∉ pre) :
    dropUntilSlash (pre ++ '/' :: rest) = '/' :: rest := by
  induction pre with
  | nil => simp [dropUntilSlash]
  | cons c cs ih =>
    have hc : c ≠ '/' := fun hc => h (hc ▸ List.mem_cons_self c cs)
    have hcs : ('/' : Char) ∉ cs := fun hm => h (List.mem_cons_of_mem c hm)
    simp only [List.cons_append, dropUntilSlash, hc, if_false]
    exact ih hcs

theorem takeWhile_ne_colon_append (pre rest : List Char) (h : (':' : Char) ∉ pre) :
    (pre ++ ':' :: rest).takeWhile (fun c => c != ':') = pre := by
  induction pre with
  | nil => simp [List.takeWhile]
  | cons c cs ih =>
    have hc : c ≠ ':' := fun hc => h (hc ▸ List.mem_cons_self c cs)
    have hcs : (':' : Char) ∉ cs := fun hm => h (List.mem_cons_of_mem c hm)
    have hcb : (c != ':') = true := by simp [hc]
    simp only [List.cons_append, List.takeWhile_cons, hcb, if_true, ih hcs]

/-- The probe URL assembled by `fmt.Sprintf("%s://%s:%d/%s", ...)` splits into
scheme and path component as expected, provided neither the host nor the
port digits contain a `/` (and the scheme contains no `:`). -/
theorem urlPathComponent_sprintf (scheme host port path : String)
    (hs : (':' : Char) ∉ scheme.data)
    (hh : ('/' : Char) ∉ host.data) (hp : ('/' : Char) ∉ port.data) :
    urlPathComponent (scheme ++ "://" ++ host ++ ":" ++ port ++ "/" ++ path)
      = "/" ++ path := by
  have hdata : (scheme ++ "://" ++ host ++ ":" ++ port ++ "/" ++ path).data
      = scheme.data ++ ':' :: '/' :: '/' ::
          ((host.data ++ ':' :: port.data) ++ '/' :: path.data) := by
    simp [String.data_append]
  unfold urlPathComponent
  rw [String.toList, hdata, dropSchemeSep_append _ _ hs, dropUntilSlash_append]
  · apply String.ext
    simp [String.data_append]
  · intro hm
    rcases List.mem_append.mp hm with hm | hm
    · exact hh hm
    · rcases List.mem_cons.mp hm with hm | hm
      · exact absurd hm (by decide)
      · exact hp hm

theorem urlScheme_sprintf (scheme rest : String) (hs : (':' : Char) ∉ scheme.data) :
    urlScheme (scheme ++ ":" ++ rest) = scheme := by
  have hdata : (scheme ++ ":" ++ rest).data = scheme.data ++ ':' :: rest.data := by
    simp [String.data_append]
  unfold urlScheme
  rw [String.toList, hdata, takeWhile_ne_colon_append _ _ hs]

/-- C4: CORRECTED.  Every probe cycle issues a GET bounded by the configured
timeout, with scheme `https` exactly when the group's flag is set — but the
format string `"%s://%s:%d/%s"` always inserts a `/` between the authority and
the configured path, so the URL's path component is `"/" ++ p`, not `p`. -/
theorem probe_request_shape (g : NodeGroupState) (n : Node)
    (hhost : ('/' : Char) ∉ n.nodeKey.host.data)
    (hport : ('/' : Char) ∉ (Nat.repr n.nodeKey.port).data) :
    (NodeGroup.probeRequest g n).method = "GET" ∧
    urlScheme (NodeGroup.probeRequest g n).url = (if g.https then "https" else "http") ∧
    urlPathComponent (NodeGroup.probeRequest g n).url = "/" ++ g.healthCheck.path ∧
    (NodeGroup.probeRequest g n).timeout = g.healthCheck.timeout * timeSecond := by
  refine ⟨rfl, ?_, ?_, rfl⟩
  · show urlScheme ((if g.https then "https" else "http") ++ "://"
        ++ n.nodeKey.host ++ ":" ++ Nat.repr n.nodeKey.port ++ "/" ++ g.healthCheck.path) = _
    cases g.https with
    | false =>
      have : ("http" ++ "://" ++ n.nodeKey.host ++ ":" ++ Nat.repr n.nodeKey.port
          ++ "/" ++ g.healthCheck.path)
          = "http" ++ ":" ++ ("//" ++ n.nodeKey.host ++ ":" ++ Nat.repr n.nodeKey.port
          ++ "/" ++ g.healthCheck.path) := by
        apply String.ext; simp [String.data_append]
      simpa [this] using urlScheme_sprintf "http" _ (by decide)
    | true =>
      have : ("https" ++ "://" ++ n.nodeKey.host ++ ":" ++ Nat.repr n.nodeKey.port
          ++ "/" ++ g.healthCheck.path)
          = "https" ++ ":" ++ ("//" ++ n.nodeKey.host ++ ":" ++ Nat.repr n.nodeKey.port
          ++ "/" ++ g.healthCheck.path) := by
        apply String.ext; simp [String.data_append]
      simpa [this] using urlScheme_sprintf "https" _ (by decide)
  · show urlPathComponent ((if g.https then "https" else "http") ++ "://"
        ++ n.nodeKey.host ++ ":" ++ Nat.repr n.nodeKey.port ++ "/" ++ g.healthCheck.path) = _
    cases g.https with
    | false => exact urlPathComponent_sprintf "http" _ _ _ (by decide) hhost hport
    | true => exact urlPathComponent_sprintf "https" _ _ _ (by decide) hhost hport

/-- C4 counterexample: with the health-check path configured as `"/health"`,
the probe URL's path component is `"//health"`, not the configured path. -/
theorem probe_request_counterexample :
    urlPathComponent (NodeGroup.probeRequest
        (routerControlGroup "api" false { path := "/health", interval := 5, timeout := 3 })
        (newNode "backend1" 8080 1)).url
      ≠ (routerControlGroup "api" false
          { path := "/health", interval := 5, timeout := 3 }).healthCheck.path := by
  decide

/-- C4 witness: the amended statement instantiated at a concrete group and node. -/
theorem probe_request_shape_witness :
    (('/' : Char) ∉ (newNode "backend1" 8080 1).nodeKey.host.data) ∧
    (('/' : Char) ∉ (Nat.repr (newNode "backend1" 8080 1).nodeKey.port).data) ∧
    ((NodeGroup.probeRequest
        (routerControlGroup "api" true { path := "/health", interval := 5, timeout := 3 })
        (newNode "backend1" 8080 1)).method = "GET" ∧
      urlScheme (NodeGroup.probeRequest
        (routerControlGroup "api" true { path := "/health", interval := 5, timeout := 3 })
        (newNode "backend1" 8080 1)).url
        = (if (routerControlGroup "api" true
            { path := "/health", interval := 5, timeout := 3 }).https then "https" else "http") ∧
      urlPathComponent (NodeGroup.probeRequest
        (routerControlGroup "api" true { path := "/health", interval := 5, timeout := 3 })
        (newNode "backend1" 8080 1)).url
        = "/" ++ (routerControlGroup "api" true
            { path := "/health", interval := 5, timeout := 3 }).healthCheck.path ∧
      (NodeGroup.probeRequest
        (routerControlGroup "api" true { path := "/health", interval := 5, timeout := 3 })
        (newNode "backend1" 8080 1)).timeout
        = (routerControlGroup "api" true
            { path := "/health", interval := 5, timeout := 3 }).healthCheck.timeout * timeSecond) :=
  ⟨by decide, by decide,
    probe_request_shape
      (routerControlGroup "api" true { path := "/health", interval := 5, timeout := 3 })
      (newNode "backend1" 8080 1) (by decide) (by decide)⟩

/-! ## C9: the `not` flag is a pure XOR -/

/-- C9: CONFIRMED.  When a condition evaluates without error, the result is the
base predicate XOR'd with `condition.not`; consequently flipping the `not`
flag flips the (error-free) result. -/
theorem evaluateCondition_xor_not (env : ExtEnv) (r : Request) (c : Condition) :
    (∀ b, evaluateConditionBase env r c = .ok b →
        evaluateCondition env r c = .ok (b != c.not)) ∧
    (∀ b, evaluateCondition env r c = .ok b →
        evaluateCondition env r { c with not := !c.not } = .ok (!b)) := by
  have hbase : evaluateConditionBase env r { c with not := !c.not }
      = evaluateConditionBase env r c := by
    cases c with
    | mk no ty k op v => cases ty <;> rfl
  constructor
  · intro b hb
    unfold evaluateCondition
    rw [hb]
  · intro b hb
    unfold evaluateCondition at hb ⊢
    rw [hbase]
    cases hbb : evaluateConditionBase env r c with
    | error e => rw [hbb] at hb; exact absurd hb (fun h => Except.noConfusion h)
    | ok b0 =>
      rw [hbb] at hb
      have hb' : (b0 != c.not) = b := by
        have := hb
        simp only [Except.ok.injEq] at this
        exact this
      rw [← hb']
      cases b0 <;> cases hcn : c.not <;> rfl

/-- C9 witness: flipping `not` on a concrete satisfied path condition. -/
theorem evaluateCondition_xor_not_witness :
    evaluateCondition env0 req0 cond0 = .ok true ∧
    evaluateCondition env0 req0 { cond0 with not := !cond0.not } = .ok (!true) :=
  ⟨by decide, (evaluateCondition_xor_not env0 req0 cond0).2 true (by decide)⟩

/-! ## C10: DeleteNode on a missing key -/

theorem findIdx?_eq_none_of_keys_ne (l : List Node) (k : NodeKey)
    (h : ∀ n ∈ l, n.nodeKey ≠ k) : l.findIdx? (fun n => n.nodeKey == k) = none := by
  induction l with
  | nil => rfl
  | cons x xs ih =>
    have hx : (x.nodeKey == k) = false := by
      simp [h x (List.mem_cons_self x xs)]
    rw [List.findIdx?_cons, hx]
    simp [ih (fun n hn => h n (List.mem_cons_of_mem x hn))]

/-- C10: CONFIRMED.  Group-level `DeleteNode` with an absent key reads a nil
`*Node` out of the map and panics inside `stopNodeHealthChecker` (locking the
`healthMu` of a nil node), whereas all three balancers' `DeleteNode` simply
scan, find nothing and return, leaving their state unchanged. -/
theorem group_deleteNode_missing_key_panics (g : NodeGroupState) (nk : NodeKey)
    (hmiss : g.nodes.lookup nk = none)
    (rrs : RRState) (hr : ∀ n ∈ rrs.nodes, n.nodeKey ≠ nk)
    (ws : WRRState) (hw : ∀ n ∈ ws.nodes, n.nodeKey ≠ nk)
    (nh : List NodeWR) (hl : ∀ v ∈ nh, v.node.nodeKey ≠ nk) :
    NodeGroup.DeleteNode g nk
      = .error "runtime error: invalid memory address or nil pointer dereference" ∧
    RR.DeleteNode rrs nk = rrs ∧
    WRR.DeleteNode ws nk = ws ∧
    LC.DeleteNode nh nk = .ok (nh, none) := by
  refine ⟨?_, ?_, ?_, ?_⟩
  · unfold NodeGroup.DeleteNode
    rw [hmiss]
    rfl
  · unfold RR.DeleteNode
    rw [findIdx?_eq_none_of_keys_ne rrs.nodes nk hr]
  · unfold WRR.DeleteNode
    rw [findIdx?_eq_none_of_keys_ne ws.nodes nk hw]
  · unfold LC.DeleteNode
    have : nh.find? (fun v => v.node.nodeKey == nk) = none := by
      rw [List.find?_eq_none]
      intro v hv
      simp [hl v hv]
    rw [this]

/-- C10 witness: a concrete group without the key, and concrete balancers. -/
theorem group_deleteNode_missing_key_panics_witness :
    g0.nodes.lookup (n0.nodeKey) = none ∧
    (∀ n ∈ (RR.fresh [newNode "a" 81 1]).nodes, n.nodeKey ≠ n0.nodeKey) ∧
    (∀ n ∈ (WRR.fresh [newNode "a" 81 1]).nodes, n.nodeKey ≠ n0.nodeKey) ∧
    (∀ v ∈ ([] : List NodeWR), v.node.nodeKey ≠ n0.nodeKey) ∧
    (NodeGroup.DeleteNode g0 n0.nodeKey
      = .error "runtime error: invalid memory address or nil pointer dereference" ∧
    RR.DeleteNode (RR.fresh [newNode "a" 81 1]) n0.nodeKey = RR.fresh [newNode "a" 81 1] ∧
    WRR.DeleteNode (WRR.fresh [newNode "a" 81 1]) n0.nodeKey = WRR.fresh [newNode "a" 81 1] ∧
    LC.DeleteNode ([] : List NodeWR) n0.nodeKey = .ok ([], none)) :=
  ⟨by decide, by decide, by decide, by decide,
    group_deleteNode_missing_key_panics g0 n0.nodeKey (by decide)
      (RR.fresh [newNode "a" 81 1]) (by decide)
      (WRR.fresh [newNode "a" 81 1]) (by decide)
      ([] : List NodeWR) (by decide)⟩

/-! ## C3: health gating of balancer membership -/

theorem lookup_assocUpdate_self (m : List (NodeKey × Node)) (k : NodeKey) (v : Node) :
    (assocUpdate m k v).lookup k = some v := by
  induction m with
  | nil => simp [assocUpdate, List.lookup]
  | cons p rest ih =>
    obtain ⟨k', v'⟩ := p
    by_cases hk : k' = k
    · simp [assocUpdate, hk, List.lookup]
    · simp only [assocUpdate, hk, if_false]
      rw [List.lookup_cons]
      have : (k == k') = false := by
        rw [beq_eq_false_iff_ne]
        exact fun h => hk h.symm
      rw [this]
      exact ih

theorem startNodeHealthChecker_healthy (n : Node) :
    (NodeGroup.startNodeHealthChecker n).healthy = n.healthy := by
  unfold NodeGroup.startNodeHealthChecker
  by_cases h : n.healthCheckerCancel <;> simp [h]

theorem checkNodeHealth_failing_fixed (g : NodeGroupState) (nk : NodeKey) (p : ProbeResult)
    (hlook : ∃ n', g.nodes.lookup nk = some n' ∧ n'.healthy = false)
    (hp : p.err = true ∨ p.statusCode ≠ 200) :
    NodeGroup.checkNodeHealth g nk p = g := by
  obtain ⟨n', hl, hh⟩ := hlook
  unfold NodeGroup.checkNodeHealth
  rw [hl]
  have h1 : ¬(n'.healthy ∧ (p.err ∨ p.statusCode ≠ 200)) := by
    intro ⟨ha, _⟩
    rw [hh] at ha
    exact absurd ha (by simp)
  have h2 : ¬(¬n'.healthy ∧ ¬p.err ∧ p.statusCode = 200) := by
    intro ⟨_, hne, hsc⟩
    rcases hp with hp | hp
    · rw [hp] at hne; exact hne rfl
    · exact hp hsc
  simp only [h1, if_false, h2]

theorem runProbes_failing_unchanged (g : NodeGroupState) (nk : NodeKey) (ps : List ProbeResult)
    (hlook : ∃ n', g.nodes.lookup nk = some n' ∧ n'.healthy = false)
    (hfail : ∀ p ∈ ps, p.err = true ∨ p.statusCode ≠ 200) :
    NodeGroup.runProbes g nk ps = g := by
  induction ps with
  | nil => rfl
  | cons p rest ih =>
    have hstep := checkNodeHealth_failing_fixed g nk p hlook (hfail p (List.mem_cons_self p rest))
    show NodeGroup.runProbes (NodeGroup.checkNodeHealth g nk p) nk rest = g
    rw [hstep]
    exact ih (fun q hq => hfail q (List.mem_cons_of_mem p hq))

/-- C3: CONFIRMED.  A node enters a group with `healthy = false` (the
`routerControl` literal sets neither health field); group `AddNode` never
touches the balancer; and as long as every probe fails (transport error or
non-200 status) the group state — in particular the balancer pool — stays
exactly as `AddNode` left it, so a node absent from the pool stays absent
until its first successful probe. -/
theorem node_gated_by_first_successful_probe (g : NodeGroupState) (n : Node)
    (ps : List ProbeResult)
    (hhealthy : n.healthy = false)
    (hpool : ∀ m ∈ g.pool, m.nodeKey ≠ n.nodeKey)
    (hfail : ∀ p ∈ ps, p.err = true ∨ p.statusCode ≠ 200) :
    (∀ host port w, (newNode host port w).healthy = false) ∧
    (NodeGroup.AddNode g n).pool = g.pool ∧
    NodeGroup.runProbes (NodeGroup.AddNode g n) n.nodeKey ps = NodeGroup.AddNode g n ∧
    (∀ m ∈ (NodeGroup.runProbes (NodeGroup.AddNode g n) n.nodeKey ps).pool,
        m.nodeKey ≠ n.nodeKey) := by
  have hpooladd : (NodeGroup.AddNode g n).pool = g.pool := rfl
  have hrun : NodeGroup.runProbes (NodeGroup.AddNode g n) n.nodeKey ps
      = NodeGroup.AddNode g n := by
    apply runProbes_failing_unchanged _ _ _ _ hfail
    refine ⟨NodeGroup.startNodeHealthChecker n, ?_, ?_⟩
    · show (assocUpdate g.nodes n.nodeKey (NodeGroup.startNodeHealthChecker n)).lookup n.nodeKey
        = _
      exact lookup_assocUpdate_self _ _ _
    · rw [startNodeHealthChecker_healthy, hhealthy]
  refine ⟨fun _ _ _ => rfl, hpooladd, hrun, ?_⟩
  intro m hm
  rw [hrun, hpooladd] at hm
  exact hpool m hm

/-! ## C7: rule evaluation order and the synthetic reject -/

theorem evalConds_ok_of_no_error (env : ExtEnv) (r : Request) (cs : List Condition)
    (h : ∀ c ∈ cs, ∃ b, evaluateCondition env r c = .ok b) :
    ∃ b, evalConds env r cs = .ok b := by
  induction cs with
  | nil => exact ⟨true, rfl⟩
  | cons c rest ih =>
    obtain ⟨b, hb⟩ := h c (List.mem_cons_self c rest)
    cases b with
    | false =>
      refine ⟨false, ?_⟩
      unfold evalConds
      rw [hb]
      rfl
    | true =>
      obtain ⟨b', hb'⟩ := ih (fun c' hc' => h c' (List.mem_cons_of_mem c hc'))
      refine ⟨b', ?_⟩
      unfold evalConds
      rw [hb]
      exact hb'

/-- C7: CONFIRMED.  Provided no condition evaluation errors, `evaluateRequest`
returns the action of the first rule whose listener equals the request's
arrival-listener tag and whose conditions all hold (skipping every rule when
the tag is absent), and the synthetic 500 "no rule was satisfied" reject when
no rule matches. -/
theorem evaluateRequest_first_match (env : ExtEnv) (rules : List Rule) (r : Request)
    (hok : ∀ rule ∈ rules, ∀ c ∈ rule.conditions, ∃ b, evaluateCondition env r c = .ok b) :
    Evaluator.evaluateRequest env rules r
      = .ok (match rules.find? (ruleSatisfied env r) with
             | some ru => ru.action
             | none => noRuleAction) ∧
    noRuleAction.reject.statusCode = 500 ∧
    noRuleAction.reject.message = "no rule was satisfied" := by
  refine ⟨?_, rfl, rfl⟩
  induction rules with
  | nil => rfl
  | cons rule rest ih =>
    have ihr := ih (fun ru hru c hc => hok ru (List.mem_cons_of_mem rule hru) c hc)
    show Evaluator.evaluateRequest env (rule :: rest) r = _
    unfold Evaluator.evaluateRequest
    cases hl : r.listenerTag with
    | none =>
      have hsat : ruleSatisfied env r rule = false := by
        unfold ruleSatisfied
        rw [hl]
        rfl
      rw [List.find?_cons_of_neg _ (by simp [hsat])]
      exact ihr
    | some lnr =>
      by_cases hls : lnr = rule.listener
      · simp only [hls, ne_eq, not_true_eq_false, if_false]
        obtain ⟨b, hb⟩ := evalConds_ok_of_no_error env r rule.conditions
          (hok rule (List.mem_cons_self rule rest))
        cases b with
        | true =>
          have hsat : ruleSatisfied env r rule = true := by
            unfold ruleSatisfied
            rw [hl, hls, hb]
            simp
          rw [List.find?_cons_of_pos _ hsat]
          rw [hb]
          rfl
        | false =>
          have hsat : ruleSatisfied env r rule = false := by
            unfold ruleSatisfied
            rw [hl, hls, hb]
            simp
          rw [List.find?_cons_of_neg _ (by simp [hsat])]
          rw [hb]
          simpa using ihr
      · have hsat : ruleSatisfied env r rule = false := by
          unfold ruleSatisfied
          rw [hl]
          simp [hls]
        rw [List.find?_cons_of_neg _ (by simp [hsat])]
        simp only [ne_eq, hls, not_false_eq_true, if_true]
        exact ihr

/-- C7 witness: one matching rule behind one listener-mismatched rule; and the
no-match case yielding the synthetic reject. -/
theorem evaluateRequest_first_match_witness :
    (∀ rule ∈ [rule1, rule2], ∀ c ∈ rule.conditions,
        ∃ b, evaluateCondition env0 req0 c = .ok b) ∧
    (Evaluator.evaluateRequest env0 [rule1, rule2] req0
      = .ok (match [rule1, rule2].find? (ruleSatisfied env0 req0) with
             | some ru => ru.action
             | none => noRuleAction) ∧
      noRuleAction.reject.statusCode = 500 ∧
      noRuleAction.reject.message = "no rule was satisfied") :=
  ⟨by decide, evaluateRequest_first_match env0 [rule1, rule2] req0 (by decide)⟩

/-! ## C8: the rule list stays stably sorted by priority -/

theorem dropWhile_gt_of_sorted (rs : List Rule) (q : Int) (h : List.Sorted ruleLE rs) :
    ∀ b ∈ rs.dropWhile (fun b => decide (b.priority ≤ q)), ¬b.priority ≤ q := by
  induction rs with
  | nil => intro b hb; exact absurd hb (by simp)
  | cons x xs ih =>
    by_cases hx : x.priority ≤ q
    · rw [List.dropWhile_cons_of_pos (by simpa using hx)]
      exact ih h.of_cons
    · rw [List.dropWhile_cons_of_neg (by simpa using hx)]
      intro b hb
      rcases List.mem_cons.mp hb with hb | hb
      · exact hb ▸ hx
      · have hxb : ruleLE x b := List.rel_of_sorted_cons h b hb
        exact fun hbq => hx (le_trans hxb hbq)

/-- Stable insertion: on a sorted list, `AddRule` places the new rule after
every rule of priority at most its own and before the rest. -/
theorem AddRule_eq_insert (rs : List Rule) (r : Rule) (h : List.Sorted ruleLE rs) :
    Evaluator.AddRule rs r
      = rs.takeWhile (fun b => decide (b.priority ≤ r.priority))
          ++ r :: rs.dropWhile (fun b => decide (b.priority ≤ r.priority)) := by
  induction rs with
  | nil => rfl
  | cons x xs ih =>
    have hxs := ih h.of_cons
    have hstep : Evaluator.AddRule (x :: xs) r
        = List.orderedInsert ruleLE x (Evaluator.AddRule xs r) := rfl
    rw [hstep, hxs]
    by_cases hx : x.priority ≤ r.priority
    · rw [List.takeWhile_cons_of_pos (by simpa using hx),
        List.dropWhile_cons_of_pos (by simpa using hx)]
      cases htw : xs.takeWhile (fun b => decide (b.priority ≤ r.priority)) with
      | nil =>
        simp only [List.nil_append]
        rw [List.orderedInsert_of_le ruleLE _ hx]
        rfl
      | cons y ys =>
        have hy : ruleLE x y := by
          have hymem : y ∈ xs := by
            have hsub := List.takeWhile_sublist
              (fun b => decide (b.priority ≤ r.priority)) (l := xs)
            exact hsub.subset (htw ▸ List.mem_cons_self y ys)
          exact List.rel_of_sorted_cons h y hymem
        rw [List.cons_append, List.orderedInsert_of_le ruleLE _ hy]
        rfl
    · have hall : ∀ b ∈ xs, ¬b.priority ≤ r.priority := by
        intro b hb hbq
        exact hx (le_trans (List.rel_of_sorted_cons h b hb) hbq)
      have htw : xs.takeWhile (fun b => decide (b.priority ≤ r.priority)) = [] := by
        cases hxs' : xs with
        | nil => rfl
        | cons y ys =>
          rw [List.takeWhile_cons_of_neg]
          simpa using hall y (hxs' ▸ List.mem_cons_self y ys)
      have hdw : xs.dropWhile (fun b => decide (b.priority ≤ r.priority)) = xs := by
        have := List.takeWhile_append_dropWhile
          (fun b => decide (b.priority ≤ r.priority)) xs
        rw [htw] at this
        simpa using this
      rw [htw, hdw, List.takeWhile_cons_of_neg (by simpa using hx),
        List.dropWhile_cons_of_neg (by simpa using hx)]
      show List.orderedInsert ruleLE x ([] ++ r :: xs) = r :: x :: xs
      show List.orderedInsert ruleLE x (r :: xs) = r :: x :: xs
      rw [List.orderedInsert]
      have : ¬ruleLE x r := hx
      rw [if_neg this]
      cases hxs' : xs with
      | nil => rfl
      | cons y ys =>
        have hy : ruleLE x y := List.rel_of_sorted_cons h y (hxs' ▸ List.mem_cons_self y ys)
        rw [List.orderedInsert_of_le ruleLE _ hy]

theorem AddRule_sorted (rs : List Rule) (r : Rule) :
    List.Sorted ruleLE (Evaluator.AddRule rs r) :=
  List.sorted_insertionSort ruleLE (rs ++ [r])

theorem filter_AddRule (rs : List Rule) (r : Rule) (p : Int) (h : List.Sorted ruleLE rs) :
    (Evaluator.AddRule rs r).filter (fun ru => ru.priority == p)
      = if r.priority = p
        then rs.filter (fun ru => ru.priority == p) ++ [r]
        else rs.filter (fun ru => ru.priority == p) := by
  rw [AddRule_eq_insert rs r h]
  rw [List.filter_append, List.filter_cons]
  by_cases hr : r.priority = p
  · have hdw : (rs.dropWhile (fun b => decide (b.priority ≤ r.priority))).filter
        (fun ru => ru.priority == p) = [] := by
      rw [List.filter_eq_nil_iff]
      intro b hb
      have := dropWhile_gt_of_sorted rs r.priority h b hb
      simp only [beq_iff_eq]
      intro hbp
      exact this (le_of_eq (hbp.trans hr.symm))
    rw [hdw, if_pos (by simpa using hr)]
    have : rs.filter (fun ru => ru.priority == p)
        = (rs.takeWhile (fun b => decide (b.priority ≤ r.priority))).filter
            (fun ru => ru.priority == p) := by
      conv_lhs => rw [← List.takeWhile_append_dropWhile
        (fun b => decide (b.priority ≤ r.priority)) rs]
      rw [List.filter_append, hdw, List.append_nil]
    rw [if_pos hr, this]
  · rw [if_neg (by simpa using hr), if_neg hr]
    conv_rhs => rw [← List.takeWhile_append_dropWhile
      (fun b => decide (b.priority ≤ r.priority)) rs]
    rw [List.filter_append]

theorem DeleteRule_sublist (rs : List Rule) (r : Rule) :
    (Evaluator.DeleteRule rs r).Sublist rs := by
  induction rs with
  | nil => exact List.Sublist.refl []
  | cons x xs ih =>
    unfold Evaluator.DeleteRule
    by_cases hx : x.rid == r.rid
    · rw [if_pos hx]
      exact (List.sublist_cons_self x xs)
    · rw [if_neg hx]
      exact List.Sublist.cons₂ x ih

/-- The run invariant behind C8: from any sorted state, a sequence of
operations yields a sorted state whose per-priority identity sequence extends
the starting one only by (a subsequence of) the newly added rules, in add
order. -/
theorem run_foldl_inv (ops : List EvOp) (rs : List Rule) (h : List.Sorted ruleLE rs) :
    List.Sorted ruleLE (ops.foldl (fun rs op => match op with
      | .add r => Evaluator.AddRule rs r
      | .del r => Evaluator.DeleteRule rs r) rs) ∧
    ∀ p : Int,
      ((ops.foldl (fun rs op => match op with
        | .add r => Evaluator.AddRule rs r
        | .del r => Evaluator.DeleteRule rs r) rs).filter
          (fun ru => ru.priority == p)).map Rule.rid
        |>.Sublist ((rs.filter (fun ru => ru.priority == p)).map Rule.rid
            ++ ((EvOp.adds ops).filter (fun ru => ru.priority == p)).map Rule.rid) := by
  induction ops generalizing rs with
  | nil =>
    refine ⟨h, fun p => ?_⟩
    simp
  | cons op rest ih =>
    cases op with
    | add r =>
      obtain ⟨hs, hsub⟩ := ih (Evaluator.AddRule rs r) (AddRule_sorted rs r)
      refine ⟨hs, fun p => ?_⟩
      have h1 := hsub p
      rw [filter_AddRule rs r p h] at h1
      have hadds : EvOp.adds (EvOp.add r :: rest) = r :: EvOp.adds rest := rfl
      rw [hadds, List.filter_cons]
      by_cases hr : r.priority = p
      · rw [if_pos hr] at h1
        rw [if_pos (by simpa using hr)]
        simpa using h1
      · rw [if_neg hr] at h1
        rw [if_neg (by simpa using hr)]
        exact h1
    | del r =>
      have hdel := DeleteRule_sublist rs r
      obtain ⟨hs, hsub⟩ := ih (Evaluator.DeleteRule rs r)
        (List.Pairwise.sublist hdel h)
      refine ⟨hs, fun p => ?_⟩
      have h1 := hsub p
      have h2 : (((Evaluator.DeleteRule rs r).filter (fun ru => ru.priority == p)).map
            Rule.rid).Sublist ((rs.filter (fun ru => ru.priority == p)).map Rule.rid) :=
        ((hdel.filter _).map _)
      have hadds : EvOp.adds (EvOp.del r :: rest) = EvOp.adds rest := rfl
      rw [hadds]
      exact h1.trans (List.Sublist.append h2 (List.Sublist.refl _))

/-- C8: CONFIRMED.  After any sequence of `AddRule` / `DeleteRule` calls the
evaluator's rule list is sorted by non-decreasing priority, and for each
priority the rules on the list appear in the order they were added (their
identities form a subsequence of the add sequence restricted to that
priority). -/
theorem rules_sorted_stable (ops : List EvOp) :
    List.Sorted ruleLE (Evaluator.run ops) ∧
    ∀ p : Int,
      (((Evaluator.run ops).filter (fun ru => ru.priority == p)).map Rule.rid).Sublist
        (((EvOp.adds ops).filter (fun ru => ru.priority == p)).map Rule.rid) := by
  obtain ⟨hs, hsub⟩ := run_foldl_inv ops [] (List.sorted_nil)
  refine ⟨hs, fun p => ?_⟩
  simpa using hsub p

/-- C3 witness: a fresh group, a fresh node and two failing probes. -/
theorem node_gated_by_first_successful_probe_witness :
    n0.healthy = false ∧
    (∀ m ∈ g0.pool, m.nodeKey ≠ n0.nodeKey) ∧
    (∀ p ∈ ps0, p.err = true ∨ p.statusCode ≠ 200) ∧
    (∀ m ∈ (NodeGroup.runProbes (NodeGroup.AddNode g0 n0) n0.nodeKey ps0).pool,
      m.nodeKey ≠ n0.nodeKey) :=
  ⟨by decide, by decide, by decide,
    (node_gated_by_first_successful_probe g0 n0 ps0 (by decide) (by decide) (by decide)).2.2.2⟩

/-! ## Periodic output streams: generic window-counting helpers -/

theorem window_count_shift {α : Type} [DecidableEq α] (f : Nat → α) (P : Nat)
    (hP : ∀ k, f (k + P) = f k) (x : α) :
    ∀ j, ((List.range P).map (fun t => f (j + t))).count x
      = ((List.range P).map f).count x := by
  have hstep : ∀ j, ((List.range P).map (fun t => f ((j + 1) + t))).count x
      = ((List.range P).map (fun t => f (j + t))).count x := by
    intro j
    cases P with
    | zero => rfl
    | succ m =>
      have h1 : (List.range (m + 1)).map (fun t => f (j + t))
          = f (j + 0) :: (List.range m).map (fun t => f ((j + 1) + t)) := by
        rw [List.range_succ_eq_map, List.map_cons, List.map_map]
        congr 1
        apply List.map_congr_left
        intro t _
        show f (j + Nat.succ t) = f ((j + 1) + t)
        congr 1
        omega
      have h2 : (List.range (m + 1)).map (fun t => f ((j + 1) + t))
          = ((List.range m).map (fun t => f ((j + 1) + t))) ++ [f (j + 0)] := by
        rw [List.range_succ, List.map_append]
        congr 1
        show [f ((j + 1) + m)] = [f (j + 0)]
        congr 1
        rw [show (j + 1) + m = (j + 0) + (m + 1) by omega]
        exact hP (j + 0)
      rw [h1, h2]
      exact (List.perm_append_singleton _ _).count_eq x
  intro j
  induction j with
  | zero => simp
  | succ n ih => rw [hstep n, ih]

theorem window_count_mul {α : Type} [DecidableEq α] (f : Nat → α) (P : Nat)
    (hP : ∀ k, f (k + P) = f k) (x : α) :
    ∀ (k j : Nat), ((List.range (P * k)).map (fun t => f (j + t))).count x
      = k * (((List.range P).map f).count x) := by
  intro k
  induction k with
  | zero => intro j; simp
  | succ m ihm =>
    intro j
    rw [show P * (m + 1) = P + P * m by ring, List.range_add, List.map_append,
      List.count_append, window_count_shift f P hP x j, List.map_map]
    have hcomp : ((List.range (P * m)).map ((fun t => f (j + t)) ∘ (fun t => P + t))).count x
        = ((List.range (P * m)).map (fun t => f ((j + P) + t))).count x := by
      congr 1
      apply List.map_congr_left
      intro t _
      show f (j + (P + t)) = f ((j + P) + t)
      congr 1
      omega
    rw [hcomp, ihm (j + P)]
    ring

/-! ## C6: round-robin fairness -/

theorem RR.stateAfter_succ (s : RRState) (k : Nat) :
    RR.stateAfter s (k + 1) = RR.stateAfter (RR.Balance s).2 k := rfl

theorem RR.balanceN_succ (s : RRState) (k : Nat) :
    RR.balanceN s (k + 1)
      = ((RR.Balance s).1 :: (RR.balanceN (RR.Balance s).2 k).1,
         (RR.balanceN (RR.Balance s).2 k).2) := rfl

theorem RR.out_succ (s : RRState) (k : Nat) :
    RR.out s (k + 1) = RR.out (RR.Balance s).2 k := rfl

theorem RR.stateAfter_add (s : RRState) (a b : Nat) :
    RR.stateAfter s (a + b) = RR.stateAfter (RR.stateAfter s a) b := by
  induction a generalizing s with
  | zero => rw [Nat.zero_add]; rfl
  | succ m ih =>
    rw [show m + 1 + b = (m + b) + 1 by omega, RR.stateAfter_succ, ih]
    rfl

theorem RR.balanceN_fst_eq_map_out (k : Nat) : ∀ (s : RRState),
    (RR.balanceN s k).1 = (List.range k).map (RR.out s) := by
  induction k with
  | zero => intro s; rfl
  | succ m ih =>
    intro s
    rw [RR.balanceN_succ, ih, List.range_succ_eq_map, List.map_cons, List.map_map]
    have hhead : (RR.Balance s).1 = RR.out s 0 := rfl
    have htail : (List.range m).map (RR.out (RR.Balance s).2)
        = (List.range m).map ((RR.out s) ∘ Nat.succ) := by
      apply List.map_congr_left
      intro t _
      rfl
    rw [hhead, htail]

theorem RR.out_periodic (s : RRState) (P : Nat) (hs : RR.stateAfter s P = s) (k : Nat) :
    RR.out s (k + P) = RR.out s k := by
  unfold RR.out
  rw [show k + P = P + k by omega, RR.stateAfter_add, hs]

theorem RR.Balance_at (nodes : List Node) (i : Nat) (v : Node) (hv : nodes[i]? = some v) :
    RR.Balance { nodes := nodes, cur := some i }
      = (some v,
         { nodes := nodes,
           cur := if i + 1 < nodes.length then some (i + 1) else none }) := by
  cases nodes with
  | nil => exact absurd hv (by simp)
  | cons front rest =>
    simp only [RR.Balance]
    rw [hv]
    by_cases hlt : i + 1 < (front :: rest).length
    · simp only [hlt, if_true]
    · simp only [hlt, if_false]

theorem RR.Balance_fresh (front : Node) (rest : List Node) :
    RR.Balance (RR.fresh (front :: rest))
      = RR.Balance { nodes := front :: rest, cur := some 0 } := by
  show RR.Balance { nodes := front :: rest, cur := none } = _
  rw [RR.Balance_at (front :: rest) 0 front (by simp)]
  simp only [RR.Balance]
  rw [show ((front :: rest)[(0 : Nat)]? = some front) from by simp]
  by_cases hlt : 0 + 1 < (front :: rest).length
  · simp only [hlt, if_true]
  · simp only [hlt, if_false]

theorem RR.balanceN_segment (suf : List Node) : ∀ (pre : List Node), suf ≠ [] →
    RR.balanceN { nodes := pre ++ suf, cur := some pre.length } suf.length
      = (suf.map some, { nodes := pre ++ suf, cur := none }) := by
  induction suf with
  | nil => intro pre h; contradiction
  | cons n t ih =>
    intro pre _
    have hv : (pre ++ n :: t)[pre.length]? = some n := by
      rw [List.getElem?_append_right (Nat.le_refl pre.length)]
      simp
    rw [show (n :: t).length = t.length + 1 from rfl, RR.balanceN_succ,
      RR.Balance_at (pre ++ n :: t) pre.length n hv]
    cases t with
    | nil =>
      have hnlt : ¬pre.length + 1 < (pre ++ [n]).length := by
        simp
      rw [if_neg hnlt]
      rfl
    | cons n2 t2 =>
      have hlt : pre.length + 1 < (pre ++ n :: n2 :: t2).length := by
        rw [List.length_append, List.length_cons, List.length_cons]
        omega
      rw [if_pos hlt]
      have hre : pre ++ n :: n2 :: t2 = (pre ++ [n]) ++ n2 :: t2 := by
        simp
      have hlen : pre.length + 1 = (pre ++ [n]).length := by
        simp
      rw [hre, hlen, ih (pre ++ [n]) (by simp)]
      rw [← hre]
      rfl

theorem RR.pass (nodes : List Node) (hne : nodes ≠ []) :
    RR.balanceN (RR.fresh nodes) nodes.length = (nodes.map some, RR.fresh nodes) := by
  cases nodes with
  | nil => contradiction
  | cons n t =>
    rw [show (n :: t).length = t.length + 1 from rfl, RR.balanceN_succ, RR.Balance_fresh n t,
      RR.Balance_at (n :: t) 0 n (by simp)]
    cases t with
    | nil =>
      rw [if_neg (by simp)]
      rfl
    | cons n2 t2 =>
      rw [if_pos (by simp)]
      have hseg := RR.balanceN_segment (n2 :: t2) [n] (by simp)
      simp only [List.singleton_append, List.length_singleton] at hseg
      rw [hseg]
      rfl

/-- C6: CONFIRMED.  With a stable pool, one RR pass returns the nodes in
insertion order and returns to the fresh cursor state, so the output stream is
periodic; every window of `N * k` consecutive `Balance` calls (any offset `j`)
returns each node exactly `k` times. -/
theorem rr_window_fairness (nodes : List Node) (hne : nodes ≠ []) (hnd : nodes.Nodup) :
    (RR.balanceN (RR.fresh nodes) nodes.length).1 = nodes.map some ∧
    ∀ (k j i : Nat) (hi : i < nodes.length),
      ((List.range (nodes.length * k)).map
          (fun t => RR.out (RR.fresh nodes) (j + t))).count (some (nodes.get ⟨i, hi⟩))
        = k := by
  have hpass := RR.pass nodes hne
  have hout : (RR.balanceN (RR.fresh nodes) nodes.length).1 = nodes.map some := by
    rw [hpass]
  have hstate : RR.stateAfter (RR.fresh nodes) nodes.length = RR.fresh nodes := by
    unfold RR.stateAfter
    rw [hpass]
  refine ⟨hout, fun k j i hi => ?_⟩
  have hper := RR.out_periodic (RR.fresh nodes) nodes.length hstate
  have hmul := window_count_mul (RR.out (RR.fresh nodes)) nodes.length hper
    (some (nodes.get ⟨i, hi⟩)) k j
  rw [hmul, ← RR.balanceN_fst_eq_map_out, hout,
    List.count_map_of_injective _ some (Option.some_injective Node) _,
    List.count_eq_one_of_mem hnd (List.get_mem nodes i hi)]
  ring

/-- C6 witness: three nodes, window length 2N at offset 1 counts node 0 twice. -/
theorem rr_window_fairness_witness :
    nodes0 ≠ [] ∧ nodes0.Nodup ∧
    ((List.range (nodes0.length * 2)).map
        (fun t => RR.out (RR.fresh nodes0) (1 + t))).count
        (some (nodes0.get ⟨0, by decide⟩)) = 2 :=
  ⟨by decide, by decide,
    (rr_window_fairness nodes0 (by decide) (by decide)).2 2 1 0 (by decide)⟩

/-! ## C1: weighted round-robin fairness -/

theorem WRR.w_stateAfter_succ (s : WRRState) (k : Nat) :
    WRR.stateAfter s (k + 1) = WRR.stateAfter (WRR.Balance s).2 k := rfl

theorem WRR.w_balanceN_succ (s : WRRState) (k : Nat) :
    WRR.balanceN s (k + 1)
      = ((WRR.Balance s).1 :: (WRR.balanceN (WRR.Balance s).2 k).1,
         (WRR.balanceN (WRR.Balance s).2 k).2) := rfl

theorem WRR.w_stateAfter_add (s : WRRState) (a b : Nat) :
    WRR.stateAfter s (a + b) = WRR.stateAfter (WRR.stateAfter s a) b := by
  induction a generalizing s with
  | zero => rw [Nat.zero_add]; rfl
  | succ m ih =>
    rw [show m + 1 + b = (m + b) + 1 by omega, WRR.w_stateAfter_succ, ih]
    rfl

theorem WRR.w_balanceN_fst_eq_map_out (k : Nat) : ∀ (s : WRRState),
    (WRR.balanceN s k).1 = (List.range k).map (WRR.out s) := by
  induction k with
  | zero => intro s; rfl
  | succ m ih =>
    intro s
    rw [WRR.w_balanceN_succ, ih, List.range_succ_eq_map, List.map_cons, List.map_map]
    have hhead : (WRR.Balance s).1 = WRR.out s 0 := rfl
    have htail : (List.range m).map (WRR.out (WRR.Balance s).2)
        = (List.range m).map ((WRR.out s) ∘ Nat.succ) := by
      apply List.map_congr_left
      intro t _
      rfl
    rw [hhead, htail]

theorem WRR.w_out_periodic (s : WRRState) (P : Nat) (hs : WRR.stateAfter s P = s) (k : Nat) :
    WRR.out s (k + P) = WRR.out s k := by
  unfold WRR.out
  rw [show k + P = P + k by omega, WRR.w_stateAfter_add, hs]

theorem WRR.w_Balance_at (nodes : List Node) (i : Nat) (v : Node) (credit : Int)
    (hv : nodes[i]? = some v) :
    WRR.Balance { nodes := nodes, cur := some i, reqCredit := credit }
      = (some v,
         if credit - 1 < 1 then
           (match nodes[i + 1]? with
            | some nxt => { nodes := nodes, cur := some (i + 1), reqCredit := nxt.weight }
            | none => { nodes := nodes, cur := none, reqCredit := (0 : Int) })
         else { nodes := nodes, cur := some i, reqCredit := credit - 1 }) := by
  cases nodes with
  | nil => exact absurd hv (by simp)
  | cons front rest =>
    simp only [WRR.Balance]
    rw [hv]
    by_cases hc : credit - 1 < 1
    · simp only [hc, if_true]
      cases hnx : (front :: rest)[i + 1]? <;> simp
    · simp only [hc, if_false]

/-- `WRR.Balance` at an exhausted credit with a successor node: advance the
cursor and reload the credit from the successor's weight. -/
theorem WRR.Balance_at_next (nodes : List Node) (i : Nat) (v nxt : Node) (credit : Int)
    (hv : nodes[i]? = some v) (hnx : nodes[i + 1]? = some nxt) (hc : credit - 1 < 1) :
    WRR.Balance { nodes := nodes, cur := some i, reqCredit := credit }
      = (some v, { nodes := nodes, cur := some (i + 1), reqCredit := nxt.weight }) := by
  rw [WRR.w_Balance_at nodes i v credit hv, if_pos hc, hnx]

/-- `WRR.Balance` at an exhausted credit on the last node: the cursor becomes
nil and the credit zero. -/
theorem WRR.Balance_at_last (nodes : List Node) (i : Nat) (v : Node) (credit : Int)
    (hv : nodes[i]? = some v) (hnx : nodes[i + 1]? = none) (hc : credit - 1 < 1) :
    WRR.Balance { nodes := nodes, cur := some i, reqCredit := credit }
      = (some v, { nodes := nodes, cur := none, reqCredit := 0 }) := by
  rw [WRR.w_Balance_at nodes i v credit hv, if_pos hc, hnx]

/-- `WRR.Balance` with credit to spare: the cursor stays, the credit drops. -/
theorem WRR.Balance_at_credit (nodes : List Node) (i : Nat) (v : Node) (credit : Int)
    (hv : nodes[i]? = some v) (hc : ¬credit - 1 < 1) :
    WRR.Balance { nodes := nodes, cur := some i, reqCredit := credit }
      = (some v, { nodes := nodes, cur := some i, reqCredit := credit - 1 }) := by
  rw [WRR.w_Balance_at nodes i v credit hv, if_neg hc]

/-- The first `WRR.Balance` call on a fresh single-node pool of weight at most
one: the cursor stays nil. -/
theorem WRR.Balance_fresh_single (n : Node) (h1 : n.weight ≤ 1) :
    WRR.Balance (WRR.fresh [n])
      = (some n, { nodes := [n], cur := none, reqCredit := 0 }) := by
  simp [WRR.Balance, WRR.fresh, h1]

/-- The first `WRR.Balance` call on a fresh pool whose front weight is at most
one: the cursor jumps to the second node. -/
theorem WRR.Balance_fresh_low (n second : Node) (t2 : List Node) (h1 : n.weight ≤ 1) :
    WRR.Balance (WRR.fresh (n :: second :: t2))
      = (some n,
         { nodes := n :: second :: t2, cur := some 1, reqCredit := second.weight }) := by
  simp [WRR.Balance, WRR.fresh, h1]

/-- The first `WRR.Balance` call on a fresh pool whose front weight exceeds
one: the cursor parks on the front with one credit already spent. -/
theorem WRR.Balance_fresh_high (n : Node) (t : List Node) (h1 : ¬n.weight ≤ 1) :
    WRR.Balance (WRR.fresh (n :: t))
      = (some n, { nodes := n :: t, cur := some 0, reqCredit := n.weight - 1 }) := by
  simp [WRR.Balance, WRR.fresh, h1]

theorem sumWeights_nil : sumWeights [] = 0 := rfl

theorem sumWeights_cons (n : Node) (t : List Node) :
    sumWeights (n :: t) = n.weight.toNat + sumWeights t := by
  simp [sumWeights]

theorem wrrPass_cons (n : Node) (t : List Node) :
    wrrPass (n :: t) = List.replicate n.weight.toNat n ++ wrrPass t := by
  simp [wrrPass]

theorem WRR.w_balanceN_segment (suf : List Node) : ∀ (c' : Nat) (pre : List Node) (n : Node),
    (∀ m ∈ suf, 1 ≤ m.weight) →
    WRR.balanceN
        { nodes := pre ++ n :: suf, cur := some pre.length, reqCredit := (c' : Int) + 1 }
        (c' + 1 + sumWeights suf)
      = ((List.replicate (c' + 1) n ++ wrrPass suf).map some,
         { nodes := pre ++ n :: suf, cur := none, reqCredit := 0 }) := by
  induction suf with
  | nil =>
    intro c'
    induction c' with
    | zero =>
      intro pre n _
      have hv : (pre ++ [n])[pre.length]? = some n := by
        rw [List.getElem?_append_right (Nat.le_refl pre.length)]
        simp
      have hnx : (pre ++ [n])[pre.length + 1]? = none := by
        apply List.getElem?_eq_none
        simp
      rw [show 0 + 1 + sumWeights [] = 0 + 1 from by rw [sumWeights_nil],
        WRR.w_balanceN_succ,
        WRR.Balance_at_last (pre ++ [n]) pre.length n _ hv hnx (by norm_num)]
      rfl
    | succ m ihm =>
      intro pre n hw
      have hv : (pre ++ [n])[pre.length]? = some n := by
        rw [List.getElem?_append_right (Nat.le_refl pre.length)]
        simp
      rw [show (m + 1) + 1 + sumWeights [] = (m + 1 + sumWeights []) + 1 from by
          rw [sumWeights_nil],
        WRR.w_balanceN_succ,
        WRR.Balance_at_credit (pre ++ [n]) pre.length n _ hv (by push_cast; omega),
        show ((m + 1 : Nat) : Int) + 1 - 1 = (m : Int) + 1 from by push_cast; ring,
        ihm pre n hw]
      simp [List.replicate_succ]
  | cons h t iht =>
    intro c'
    induction c' with
    | zero =>
      intro pre n hw
      have hwh : 1 ≤ h.weight := hw h (List.mem_cons_self h t)
      have hwht : 1 ≤ h.weight.toNat := by omega
      have hv : (pre ++ n :: h :: t)[pre.length]? = some n := by
        rw [List.getElem?_append_right (Nat.le_refl pre.length)]
        simp
      have hnx : (pre ++ n :: h :: t)[pre.length + 1]? = some h := by
        rw [List.getElem?_append_right (by omega)]
        rw [show pre.length + 1 - pre.length = 1 by omega]
        simp
      rw [show 0 + 1 + sumWeights (h :: t)
            = ((h.weight.toNat - 1) + 1 + sumWeights t) + 1 from by
          rw [sumWeights_cons]; omega,
        WRR.w_balanceN_succ,
        WRR.Balance_at_next (pre ++ n :: h :: t) pre.length n h _ hv hnx (by norm_num)]
      have hre : pre ++ n :: h :: t = (pre ++ [n]) ++ h :: t := by simp
      have hlen : pre.length + 1 = (pre ++ [n]).length := by simp
      have hcredit : h.weight = ((h.weight.toNat - 1 : Nat) : Int) + 1 := by omega
      rw [hre, hlen]
      have hseg := iht (h.weight.toNat - 1) (pre ++ [n]) h
        (fun m hm => hw m (List.mem_cons_of_mem h hm))
      rw [← hcredit] at hseg
      rw [hseg, ← hre,
        show (h.weight.toNat - 1) + 1 = h.weight.toNat from by omega, wrrPass_cons]
      simp
    | succ m ihm =>
      intro pre n hw
      have hv : (pre ++ n :: h :: t)[pre.length]? = some n := by
        rw [List.getElem?_append_right (Nat.le_refl pre.length)]
        simp
      rw [show (m + 1) + 1 + sumWeights (h :: t)
            = (m + 1 + sumWeights (h :: t)) + 1 from by omega,
        WRR.w_balanceN_succ,
        WRR.Balance_at_credit (pre ++ n :: h :: t) pre.length n _ hv (by push_cast; omega),
        show ((m + 1 : Nat) : Int) + 1 - 1 = (m : Int) + 1 from by push_cast; ring,
        ihm pre n hw]
      simp [List.replicate_succ]

theorem WRR.w_pass (nodes : List Node) (hne : nodes ≠ [])
    (hw : ∀ m ∈ nodes, 1 ≤ m.weight) :
    WRR.balanceN (WRR.fresh nodes) (sumWeights nodes)
      = ((wrrPass nodes).map some, WRR.fresh nodes) := by
  cases nodes with
  | nil => contradiction
  | cons n t =>
    have hwn : 1 ≤ n.weight := hw n (List.mem_cons_self n t)
    have hwnt : 1 ≤ n.weight.toNat := by omega
    by_cases h1 : n.weight ≤ 1
    · have hw1 : n.weight = 1 := le_antisymm h1 hwn
      cases t with
      | nil =>
        rw [show sumWeights [n] = 0 + 1 from by rw [sumWeights_cons, sumWeights_nil]; omega,
          WRR.w_balanceN_succ, WRR.Balance_fresh_single n h1]
        rw [show wrrPass [n] = [n] from by rw [wrrPass_cons, hw1]; simp [wrrPass]]
        rfl
      | cons h2 t2 =>
        have hwh2 : 1 ≤ h2.weight := hw h2 (List.mem_cons_of_mem n (List.mem_cons_self h2 t2))
        rw [show sumWeights (n :: h2 :: t2)
              = ((h2.weight.toNat - 1) + 1 + sumWeights t2) + 1 from by
            rw [sumWeights_cons, sumWeights_cons]; omega,
          WRR.w_balanceN_succ, WRR.Balance_fresh_low n h2 t2 h1]
        have hcredit : h2.weight = ((h2.weight.toNat - 1 : Nat) : Int) + 1 := by omega
        have hseg := WRR.w_balanceN_segment t2 (h2.weight.toNat - 1) [n] h2
          (fun m hm => hw m (List.mem_cons_of_mem n (List.mem_cons_of_mem h2 hm)))
        simp only [List.singleton_append, List.length_singleton] at hseg
        rw [← hcredit] at hseg
        rw [hseg,
          show (h2.weight.toNat - 1) + 1 = h2.weight.toNat from by omega,
          wrrPass_cons, wrrPass_cons, show n.weight.toNat = 1 from by omega]
        simp [WRR.fresh]
    · have hw2 : 2 ≤ n.weight := by omega
      have hw2t : 2 ≤ n.weight.toNat := by omega
      rw [show sumWeights (n :: t)
            = ((n.weight.toNat - 2) + 1 + sumWeights t) + 1 from by
          rw [sumWeights_cons]; omega,
        WRR.w_balanceN_succ, WRR.Balance_fresh_high n t h1]
      have hcredit : n.weight - 1 = ((n.weight.toNat - 2 : Nat) : Int) + 1 := by omega
      have hseg := WRR.w_balanceN_segment t (n.weight.toNat - 2) [] n
        (fun m hm => hw m (List.mem_cons_of_mem n hm))
      simp only [List.nil_append, List.length_nil] at hseg
      rw [← hcredit] at hseg
      rw [hseg, wrrPass_cons,
        show n.weight.toNat = ((n.weight.toNat - 2) + 1) + 1 from by omega,
        List.replicate_succ]
      simp [WRR.fresh, List.replicate_succ]

theorem mem_of_mem_wrrPass {y : Node} {l : List Node} (h : y ∈ wrrPass l) : y ∈ l := by
  rcases List.mem_flatMap.mp h with ⟨a, ha, hy⟩
  rw [List.eq_of_mem_replicate hy]
  exact ha

theorem count_wrrPass (nodes : List Node) (hnd : nodes.Nodup) (x : Node) (hx : x ∈ nodes) :
    (wrrPass nodes).count x = x.weight.toNat := by
  induction nodes with
  | nil => cases hx
  | cons n t ih =>
    rw [wrrPass_cons, List.count_append]
    rcases List.mem_cons.mp hx with hx | hx
    · subst hx
      rw [List.count_replicate_self]
      have hzero : (wrrPass t).count x = 0 :=
        List.count_eq_zero.mpr (fun hm => (List.nodup_cons.mp hnd).1 (mem_of_mem_wrrPass hm))
      rw [hzero, Nat.add_zero]
    · have hxn : x ≠ n := by
        intro h
        exact (List.nodup_cons.mp hnd).1 (h ▸ hx)
      have hnx : ¬n = x := fun h => hxn h.symm
      rw [List.count_replicate, if_neg (by simp [hnx]), Nat.zero_add]
      exact ih (List.nodup_cons.mp hnd).2 hx

/-- C1: CONFIRMED.  With a stable pool whose weights are all at least 1, one
full WRR pass (sum-of-weights calls from the fresh state) returns each node
contiguously, exactly its weight many times, in pool order, and lands back on
the fresh state; hence the output stream is periodic and every window of
sum-of-weights consecutive calls (any offset) returns node `i` exactly
`w_i` times.  The concrete pool A(3), B(1), C(2) yields A,A,A,B,C,C and the
7th call returns A again. -/
theorem wrr_window_fairness (nodes : List Node) (hne : nodes ≠ [])
    (hw : ∀ m ∈ nodes, 1 ≤ m.weight) (hnd : nodes.Nodup) :
    (WRR.balanceN (WRR.fresh nodes) (sumWeights nodes)).1 = (wrrPass nodes).map some ∧
    (∀ (j i : Nat) (hi : i < nodes.length),
      ((List.range (sumWeights nodes)).map
          (fun t => WRR.out (WRR.fresh nodes) (j + t))).count (some (nodes.get ⟨i, hi⟩))
        = (nodes.get ⟨i, hi⟩).weight.toNat) ∧
    (WRR.balanceN (WRR.fresh wnodes0) 7).1
      = [some (newNode "A" 80 3), some (newNode "A" 80 3), some (newNode "A" 80 3),
         some (newNode "B" 80 1), some (newNode "C" 80 2), some (newNode "C" 80 2),
         some (newNode "A" 80 3)] := by
  have hpass := WRR.w_pass nodes hne hw
  have hout : (WRR.balanceN (WRR.fresh nodes) (sumWeights nodes)).1
      = (wrrPass nodes).map some := by
    rw [hpass]
  have hstate : WRR.stateAfter (WRR.fresh nodes) (sumWeights nodes) = WRR.fresh nodes := by
    unfold WRR.stateAfter
    rw [hpass]
  refine ⟨hout, fun j i hi => ?_, by decide⟩
  have hper := WRR.w_out_periodic (WRR.fresh nodes) (sumWeights nodes) hstate
  have hshift := window_count_shift (WRR.out (WRR.fresh nodes)) (sumWeights nodes) hper
    (some (nodes.get ⟨i, hi⟩)) j
  rw [hshift, ← WRR.w_balanceN_fst_eq_map_out, hout,
    List.count_map_of_injective _ some (Option.some_injective Node) _,
    count_wrrPass nodes hnd _ (List.get_mem nodes i hi)]

/-- C1 witness: the A(3), B(1), C(2) pool, window at offset 2 counts A three
times. -/
theorem wrr_window_fairness_witness :
    wnodes0 ≠ [] ∧ (∀ m ∈ wnodes0, 1 ≤ m.weight) ∧ wnodes0.Nodup ∧
    ((List.range (sumWeights wnodes0)).map
        (fun t => WRR.out (WRR.fresh wnodes0) (2 + t))).count
        (some (wnodes0.get ⟨0, by decide⟩))
      = (wnodes0.get ⟨0, by decide⟩).weight.toNat :=
  ⟨by decide, by decide, by decide,
    (wrr_window_fairness wnodes0 (by decide) (by decide) (by decide)).2.1 2 0 (by decide)⟩

/-! ## C5: deleting an LC node with a dispatch in flight -/

theorem except_bind_ok {α β : Type} (a : α) (f : α → Except String β) :
    (Except.ok a : Except String α) >>= f = f a := rfl

theorem except_pure {α : Type} (a : α) : (pure a : Except String α) = Except.ok a := rfl

theorem hGet_ok (nh : List NodeWR) (i : Int) (a : NodeWR) (h0 : 0 ≤ i)
    (h : nh[i.toNat]? = some a) : hGet nh i = .ok a := by
  obtain ⟨hlt, hval⟩ := List.getElem?_eq_some.mp h
  unfold hGet
  rw [dif_pos ⟨h0, hlt⟩]
  exact congrArg Except.ok hval

theorem hSet_ok (nh : List NodeWR) (i : Int) (x : NodeWR) (h0 : 0 ≤ i)
    (hlt : i.toNat < nh.length) : hSet nh i x = .ok (nh.set i.toNat x) := by
  unfold hSet
  rw [if_pos ⟨h0, hlt⟩]

theorem nodeHeapLess_ok (nh : List NodeWR) (i j : Int) (hi0 : 0 ≤ i) (hj0 : 0 ≤ j)
    (hi : i.toNat < nh.length) (hj : j.toNat < nh.length) :
    nodeHeapLess nh i j = .ok (decide (nh[i.toNat].reqs < nh[j.toNat].reqs)) := by
  unfold nodeHeapLess
  rw [hGet_ok nh i _ hi0 (List.getElem?_eq_getElem hi), except_bind_ok,
    hGet_ok nh j _ hj0 (List.getElem?_eq_getElem hj), except_bind_ok]

theorem nodeHeapSwap_ok (nh : List NodeWR) (i j : Int) (hi0 : 0 ≤ i) (hj0 : 0 ≤ j)
    (hi : i.toNat < nh.length) (hj : j.toNat < nh.length) :
    nodeHeapSwap nh i j
      = .ok ((nh.set i.toNat { nh[j.toNat] with index := i }).set j.toNat
          { nh[i.toNat] with index := j }) := by
  unfold nodeHeapSwap
  rw [hGet_ok nh i _ hi0 (List.getElem?_eq_getElem hi), except_bind_ok,
    hGet_ok nh j _ hj0 (List.getElem?_eq_getElem hj), except_bind_ok,
    hSet_ok nh i _ hi0 hi, except_bind_ok,
    hSet_ok _ j _ hj0 (by rw [List.length_set]; exact hj), except_bind_ok]

/-- `nodeHeapSwap` with the two slot contents named via `getElem?`, so that
later rewriting of the result never has to touch indices under bound proofs. -/
theorem nodeHeapSwap_ok2 (nh : List NodeWR) (i j : Int) (a b : NodeWR)
    (hi0 : 0 ≤ i) (hj0 : 0 ≤ j)
    (ha : nh[i.toNat]? = some a) (hb : nh[j.toNat]? = some b) :
    nodeHeapSwap nh i j
      = .ok ((nh.set i.toNat { b with index := i }).set j.toNat
          { a with index := j }) := by
  obtain ⟨hiL, hva⟩ := List.getElem?_eq_some.mp ha
  obtain ⟨hjL, hvb⟩ := List.getElem?_eq_some.mp hb
  rw [nodeHeapSwap_ok nh i j hi0 hj0 hiL hjL, hva, hvb]

/-- The sift-down loop terminates within the supplied fuel (its index strictly
increases), returns `ok`, preserves the length, and never touches positions at
or beyond its bound `n`. -/
theorem heapDownLoop_spec : ∀ (fuel : Nat) (nh : List NodeWR) (i n : Int),
    n ≤ (nh.length : Int) → i < n → (n - i).toNat < fuel →
    ∃ nh' i', heapDownLoop nh i n fuel = .ok (nh', i') ∧
      nh'.length = nh.length ∧
      ∀ m : Nat, n ≤ (m : Int) → nh'[m]? = nh[m]? := by
  intro fuel
  induction fuel with
  | zero =>
    intro nh i n _ hi hf
    omega
  | succ f ih =>
    intro nh i n hn hi hf
    by_cases hbrk : 2 * i + 1 ≥ n ∨ 2 * i + 1 < 0
    · refine ⟨nh, i, ?_, rfl, fun m _ => rfl⟩
      simp only [heapDownLoop]
      rw [if_pos hbrk]
    · push_neg at hbrk
      obtain ⟨hj1n, hj10⟩ := hbrk
      have hi0 : 0 ≤ i := by omega
      have hiL : i.toNat < nh.length := by omega
      have hj1L : (2 * i + 1).toNat < nh.length := by omega
      have hcont : ∀ jv : Int, i < jv → jv < n →
          ∃ nh' i',
            (Bind.bind (nodeHeapLess nh jv i) (fun b =>
              if ¬b then Except.ok (nh, i)
              else Bind.bind (nodeHeapSwap nh i jv)
                (fun nh2 => heapDownLoop nh2 jv n f))) = .ok (nh', i') ∧
            nh'.length = nh.length ∧
            ∀ m : Nat, n ≤ (m : Int) → nh'[m]? = nh[m]? := by
        intro jv hijv hjvn
        have hjv0 : 0 ≤ jv := by omega
        have hjvL : jv.toNat < nh.length := by omega
        rw [nodeHeapLess_ok nh jv i hjv0 hi0 hjvL hiL, except_bind_ok]
        by_cases hless : nh[jv.toNat].reqs < nh[i.toNat].reqs
        · rw [if_neg (by simpa using hless),
            nodeHeapSwap_ok nh i jv hi0 hjv0 hiL hjvL, except_bind_ok]
          obtain ⟨nh', i', hrun, hlen, hpres⟩ :=
            ih ((nh.set i.toNat { nh[jv.toNat] with index := i }).set jv.toNat
                { nh[i.toNat] with index := jv }) jv n
              (by rw [List.length_set, List.length_set]; exact hn) hjvn (by omega)
          refine ⟨nh', i', hrun, ?_, ?_⟩
          · rw [hlen, List.length_set, List.length_set]
          · intro m hm
            rw [hpres m hm,
              List.getElem?_set_ne (by omega),
              List.getElem?_set_ne (by omega)]
        · rw [if_pos (by simpa using hless)]
          exact ⟨nh, i, rfl, rfl, fun m _ => rfl⟩
      simp only [heapDownLoop]
      rw [if_neg (by push_neg; exact ⟨hj1n, hj10⟩)]
      by_cases hj2 : 2 * i + 1 + 1 < n
      · have hj2L : (2 * i + 1 + 1).toNat < nh.length := by omega
        rw [if_pos hj2,
          nodeHeapLess_ok nh (2 * i + 1 + 1) (2 * i + 1) (by omega) (by omega) hj2L hj1L,
          except_bind_ok, except_pure, except_bind_ok]
        by_cases hless : nh[(2 * i + 1 + 1).toNat].reqs < nh[(2 * i + 1).toNat].reqs
        · rw [if_pos (by simpa using hless)]
          exact hcont (2 * i + 1 + 1) (by omega) hj2
        · rw [if_neg (by simpa using hless)]
          exact hcont (2 * i + 1) (by omega) hj1n
      · rw [if_neg hj2, except_pure, except_bind_ok]
        exact hcont (2 * i + 1) (by omega) hj1n

/-- The sift-up loop terminates within the supplied fuel (its index strictly
decreases), returns `ok`, preserves the length, and never touches positions
above its starting index. -/
theorem heapUpLoop_spec : ∀ (fuel : Nat) (nh : List NodeWR) (j : Int),
    -1 ≤ j → j < (nh.length : Int) → (j + 1).toNat < fuel →
    ∃ nh' j', heapUpLoop nh j fuel = .ok (nh', j') ∧
      nh'.length = nh.length ∧
      ∀ m : Nat, j < (m : Int) → nh'[m]? = nh[m]? := by
  intro fuel
  induction fuel with
  | zero =>
    intro nh j _ _ hf
    omega
  | succ f ih =>
    intro nh j hjm1 hjL hf
    by_cases hij : Int.tdiv (j - 1) 2 = j
    · refine ⟨nh, j, ?_, rfl, fun m _ => rfl⟩
      simp only [heapUpLoop]
      rw [if_pos hij]
    · have hj1 : 1 ≤ j := by
        rcases (by omega : j = -1 ∨ j = 0 ∨ 1 ≤ j) with h | h | h
        · exfalso; apply hij; subst h; decide
        · exfalso; apply hij; subst h; decide
        · exact h
      have hi0 : 0 ≤ Int.tdiv (j - 1) 2 := Int.tdiv_nonneg (by omega) (by omega)
      have hile : Int.tdiv (j - 1) 2 ≤ j - 1 := by
        rw [Int.tdiv_eq_ediv (by omega) (by omega)]
        exact Int.ediv_le_self _ (by omega)
      have hjL' : j.toNat < nh.length := by omega
      have hiLL : (Int.tdiv (j - 1) 2).toNat < nh.length := by omega
      simp only [heapUpLoop]
      rw [if_neg hij,
        nodeHeapLess_ok nh j (Int.tdiv (j - 1) 2) (by omega) hi0 hjL' hiLL,
        except_bind_ok]
      by_cases hless : nh[j.toNat].reqs < nh[(Int.tdiv (j - 1) 2).toNat].reqs
      · rw [if_neg (by simpa using hless),
          nodeHeapSwap_ok nh (Int.tdiv (j - 1) 2) j hi0 (by omega) hiLL hjL',
          except_bind_ok]
        obtain ⟨nh', j', hrun, hlen, hpres⟩ := ih
          ((nh.set (Int.tdiv (j - 1) 2).toNat
              { nh[j.toNat] with index := Int.tdiv (j - 1) 2 }).set j.toNat
            { nh[(Int.tdiv (j - 1) 2).toNat] with index := j })
          (Int.tdiv (j - 1) 2) (by omega)
          (by rw [List.length_set, List.length_set]; omega) (by omega)
        refine ⟨nh', j', hrun, by rw [hlen, List.length_set, List.length_set], ?_⟩
        intro m hm
        rw [hpres m (by omega), List.getElem?_set_ne (by omega),
          List.getElem?_set_ne (by omega)]
      · rw [if_pos (by simpa using hless)]
        exact ⟨nh, j, rfl, rfl, fun m _ => rfl⟩

/-- `heap.Fix` at index `-1` — the recorded index of a detached entry — is a
no-op: `down` breaks immediately (its left child index is negative), reports
no movement, and `up` breaks immediately (the parent of `-1` under Go integer
division is `-1` itself).  No element is read or written, so no panic. -/
theorem heapFix_neg_one (nh : List NodeWR) : heapFix nh (-1) = .ok nh := by
  have hfuel : heapFuel nh = nh.length + 1 + 1 := by
    unfold heapFuel
    omega
  unfold heapFix heapDown
  rw [hfuel]
  simp only [heapDownLoop]
  rw [if_pos (show 2 * (-1 : Int) + 1 ≥ (nh.length : Int) ∨ 2 * (-1 : Int) + 1 < 0 from
      Or.inr (by norm_num))]
  rw [except_bind_ok, except_bind_ok]
  rw [show decide ((-1 : Int) < -1) = false from by decide]
  simp only [Bool.false_eq_true, if_false]
  simp only [heapUpLoop]
  rw [if_pos (show Int.tdiv ((-1 : Int) - 1) 2 = -1 from by decide)]
  rw [except_bind_ok]

theorem nodeHeapPop_ok (nh : List NodeWR) (x : NodeWR) (h : nh.getLast? = some x) :
    nodeHeapPop nh = .ok (nh.dropLast, { x with index := -1 }) := by
  unfold nodeHeapPop
  rw [h]

/-- `heap.Remove` at the in-range position of an entry returns `ok`, shrinks
the heap by one and hands back exactly that entry with its index set to `-1`:
the initial swap parks the entry in the last slot, the sifts only touch
earlier slots, and `Pop` detaches it. -/
theorem heapRemove_spec (nh : List NodeWR) (i : Nat) (v : NodeWR)
    (hv : nh[i]? = some v) :
    ∃ nh', heapRemove nh (i : Int) = .ok (nh', { v with index := -1 }) ∧
      nh'.length + 1 = nh.length := by
  obtain ⟨hiL, hval⟩ := List.getElem?_eq_some.mp hv
  simp only [heapRemove]
  by_cases heq : (nh.length : Int) - 1 = (i : Int)
  · rw [if_neg (by omega)]
    have hlast : nh.getLast? = some v := by
      rw [List.getLast?_eq_getElem?, show nh.length - 1 = i from by omega, hv]
    rw [nodeHeapPop_ok nh v hlast]
    exact ⟨nh.dropLast, rfl, by rw [List.length_dropLast]; omega⟩
  · have hin : i < nh.length - 1 := by omega
    rw [if_pos (by omega)]
    have hn0 : (0 : Int) ≤ (nh.length : Int) - 1 := by omega
    have hN : ((nh.length : Int) - 1).toNat = nh.length - 1 := by omega
    have hnL : ((nh.length : Int) - 1).toNat < nh.length := by omega
    have hvi : nh[((i : Int)).toNat]? = some v := by
      rw [Int.toNat_natCast]
      exact hv
    obtain ⟨b, hb⟩ : ∃ b, nh[((nh.length : Int) - 1).toNat]? = some b :=
      ⟨_, List.getElem?_eq_getElem hnL⟩
    rw [nodeHeapSwap_ok2 nh (i : Int) ((nh.length : Int) - 1) v b (by omega) hn0
      hvi hb, except_bind_ok]
    set N := ((nh.length : Int) - 1).toNat with hNdef
    set nh1 := (nh.set ((i : Int)).toNat { b with index := (i : Int) }).set N
      { v with index := (nh.length : Int) - 1 } with hnh1
    have hlen1 : nh1.length = nh.length := by
      rw [hnh1, List.length_set, List.length_set]
    have hlast1 : nh1[N]? = some { v with index := (nh.length : Int) - 1 } := by
      rw [hnh1]
      exact List.getElem?_set_self (by rw [List.length_set]; omega)
    have hfuel1 : heapFuel nh1 = nh.length + 2 := by
      unfold heapFuel
      rw [hlen1]
    unfold heapDown
    obtain ⟨nh2, i', hrun2, hlen2, hpres2⟩ := heapDownLoop_spec (heapFuel nh1) nh1
      (i : Int) ((nh.length : Int) - 1)
      (by rw [hlen1]; omega) (by omega) (by rw [hfuel1]; omega)
    rw [hrun2, except_bind_ok, except_bind_ok]
    have hlast2 : nh2[N]? = some { v with index := (nh.length : Int) - 1 } := by
      rw [hpres2 N (by omega), hlast1]
    have hlen2' : nh2.length = nh.length := by rw [hlen2, hlen1]
    have hpop2 : nodeHeapPop nh2 = .ok (nh2.dropLast, { v with index := -1 }) := by
      have hl : nh2.getLast? = some { v with index := (nh.length : Int) - 1 } := by
        rw [List.getLast?_eq_getElem?, hlen2', show nh.length - 1 = N from hN.symm,
          hlast2]
      rw [nodeHeapPop_ok nh2 _ hl]
    by_cases hmv : (i : Int) < i'
    · rw [if_pos (by simpa using hmv), except_pure, except_bind_ok, hpop2]
      exact ⟨nh2.dropLast, rfl, by rw [List.length_dropLast, hlen2']; omega⟩
    · rw [if_neg (by simpa using hmv)]
      obtain ⟨nh3, j', hrun3, hlen3, hpres3⟩ := heapUpLoop_spec (heapFuel nh2) nh2
        (i : Int) (by omega) (by rw [hlen2']; omega)
        (by unfold heapFuel; rw [hlen2']; omega)
      rw [hrun3, except_bind_ok, except_pure, except_bind_ok]
      have hlast3 : nh3[N]? = some { v with index := (nh.length : Int) - 1 } := by
        rw [hpres3 N (by omega), hlast2]
      have hpop3 : nodeHeapPop nh3 = .ok (nh3.dropLast, { v with index := -1 }) := by
        have hl : nh3.getLast? = some { v with index := (nh.length : Int) - 1 } := by
          rw [List.getLast?_eq_getElem?, hlen3, hlen2',
            show nh.length - 1 = N from hN.symm, hlast3]
        rw [nodeHeapPop_ok nh3 _ hl]
      rw [hpop3]
      exact ⟨nh3.dropLast, rfl, by rw [List.length_dropLast, hlen3, hlen2']; omega⟩

/-- C5: CONFIRMED.  If `LC.DeleteNode` finds the node's heap entry at its
recorded in-range index, it succeeds (no panic), shrinks the heap by exactly
one entry, and hands the in-flight observer the detached entry with index
`-1`.  When that observer later fires, `monitorRequestFinish` decrements only
the detached entry's counter and — because `heap.Fix` at index `-1` is a
no-op (`down` stops at once and `up` stops at parent `(-1-1)/2 = -1`) —
returns the heap completely unchanged, again without panicking. -/
theorem lc_detached_observer (nh : List NodeWR) (k : NodeKey) (i : Nat) (v : NodeWR)
    (hfind : nh.find? (fun w => w.node.nodeKey == k) = some v)
    (hpos : nh[i]? = some v) (hidx : v.index = (i : Int)) :
    ∃ nh', LC.DeleteNode nh k = .ok (nh', some { v with index := -1 }) ∧
      nh'.length + 1 = nh.length ∧
      LC.monitorRequestFinish nh' { v with index := -1 }
        = .ok (nh', { v with reqs := v.reqs - 1, index := -1 }) := by
  obtain ⟨nh', hrem, hlen⟩ := heapRemove_spec nh i v hpos
  refine ⟨nh', ?_, hlen, ?_⟩
  · simp only [LC.DeleteNode, hfind, hidx, hrem, except_bind_ok]
  · simp only [LC.monitorRequestFinish]
    rw [heapFix_neg_one nh', except_bind_ok]

/-- C5 witness: the three-entry heap `lcW0`; deleting the root entry `lcWA`
detaches it with index `-1`, and the observer then leaves the two-entry heap
untouched while decrementing the detached counter. -/
theorem lc_detached_observer_witness :
    lcW0.find? (fun w => w.node.nodeKey == lcKA) = some lcWA ∧
    ∃ nh', LC.DeleteNode lcW0 lcKA = .ok (nh', some { lcWA with index := -1 }) ∧
      nh'.length + 1 = lcW0.length ∧
      LC.monitorRequestFinish nh' { lcWA with index := -1 }
        = .ok (nh', { lcWA with reqs := lcWA.reqs - 1, index := -1 }) :=
  ⟨by decide, lc_detached_observer lcW0 lcKA 0 lcWA (by decide) (by decide) (by decide)⟩

end Statera